import Mathlib

/-!
Shallow embedding of `src/orchestrator/workflow.py` and the plan-validation
loop of `src/orchestrator/workflow_builder.py` from the Velvet repository,
together with proofs settling the frozen claims about them.

Modelling conventions:
* Python machine values produced by `ast.literal_eval` are modelled by `Lit`.
* The fragment of the Python AST that `parse_workflow_code` inspects is
  modelled by `PExpr` / `Stmt`.
* Functions that `raise` are modelled either as `Except WfError _` or, for
  the two graph mutators, as `Graph × Option WfError` (the state of the
  Python object after the call, plus the exception raised, if any).
* Each `WfError` constructor corresponds to one `raise` site of the source;
  the constructor's doc comment quotes the Python message.
-/

/-- A Python value producible by `ast.literal_eval` (the forms this parser
can meet: constants, lists and dicts; tuples/sets/complex arithmetic never
occur in the recognized vocabulary and are not modelled). -/
inductive Lit where
  | str (s : String)
  | int (n : Int)
  | bool (b : Bool)
  | none
  | list (elts : List Lit)
  | dict (entries : List (Lit × Lit))
deriving Repr

/-- The fragment of Python expression AST nodes inspected by the extractor:
constants, names, list/dict displays, calls and attribute access.  Any other
expression form behaves, for every code path of the extractor, exactly like
`attr` (not a literal, not a `Name`, not a `Call`), so this fragment is
exhaustive for the extractor's behaviour. -/
inductive PExpr where
  | constStr (s : String)
  | constInt (n : Int)
  | constBool (b : Bool)
  | constNone
  | name (id : String)
  | listE (elts : List PExpr)
  | dictE (entries : List (PExpr × PExpr))
  | call (func : PExpr) (args : List PExpr) (kwargs : List (Option String × PExpr))
  | attr (obj : PExpr) (attrName : String)
deriving Repr

/-- A top-level Python statement as seen by the extractor.  `assign` keeps
only the plain-`Name` targets, which is exactly what both passes of
`parse_workflow_code` look at (`isinstance(target, ast.Name)`); a statement
of any unmodelled form behaves like `other` on every extractor code path. -/
inductive Stmt where
  | assign (targets : List String) (value : PExpr)
  | exprStmt (value : PExpr)
  | other
deriving Repr

mutual
/-- `ast.literal_eval` on the modelled AST fragment: constants evaluate to
themselves, list/dict displays evaluate recursively, and every other form
(in particular a bare `Name`) raises, modelled by `none`. -/
def literalEval : PExpr → Option Lit
  | .constStr s => some (.str s)
  | .constInt n => some (.int n)
  | .constBool b => some (.bool b)
  | .constNone => some .none
  | .listE elts =>
    match literalEvalList elts with
    | some vs => some (.list vs)
    | Option.none => Option.none
  | .dictE entries =>
    match literalEvalPairs entries with
    | some ps => some (.dict ps)
    | Option.none => Option.none
  | .name _ => Option.none
  | .call _ _ _ => Option.none
  | .attr _ _ => Option.none

def literalEvalList : List PExpr → Option (List Lit)
  | [] => some []
  | e :: es =>
    match literalEval e, literalEvalList es with
    | some v, some vs => some (v :: vs)
    | _, _ => Option.none

def literalEvalPairs : List (PExpr × PExpr) → Option (List (Lit × Lit))
  | [] => some []
  | (k, v) :: es =>
    match literalEval k, literalEval v, literalEvalPairs es with
    | some kv, some vv, some ps => some ((kv, vv) :: ps)
    | _, _, _ => Option.none
end

/-- Python `str()` of a string: the string itself; of other values: their
`repr` (below). -/
def pyQuote (s : String) : String :=
  String.mk ['\x27'] ++ s ++ String.mk ['\x27']

mutual
/-- Python `repr()` of a `Lit` (escape sequences inside strings are not
modelled; no claim depends on them). -/
def Lit.pyRepr : Lit → String
  | .str s => pyQuote s
  | .int n => toString n
  | .bool b => if b then "True" else "False"
  | .none => "None"
  | .list elts => "[" ++ Lit.pyReprList elts ++ "]"
  | .dict entries => "\x7b" ++ Lit.pyReprPairs entries ++ "\x7d"

def Lit.pyReprList : List Lit → String
  | [] => ""
  | [v] => Lit.pyRepr v
  | v :: vs => Lit.pyRepr v ++ ", " ++ Lit.pyReprList vs

def Lit.pyReprPairs : List (Lit × Lit) → String
  | [] => ""
  | [(k, v)] => Lit.pyRepr k ++ ": " ++ Lit.pyRepr v
  | (k, v) :: ps => Lit.pyRepr k ++ ": " ++ Lit.pyRepr v ++ ", " ++ Lit.pyReprPairs ps
end

/-- Python `str()` of a `Lit`: identity on strings, `repr` otherwise. -/
def Lit.pyStr : Lit → String
  | .str s => s
  | v => v.pyRepr

/-- `WorkflowNode` (workflow.py, lines 10-21): a named executable step.
`params` models the Python dict as its entry list in insertion order. -/
structure WorkflowNode where
  name : String
  action : String
  params : List (Lit × Lit)
deriving Repr

/-- One constructor per `raise` site of workflow.py (plus `fuelExhausted`,
an artifact of fuel-based recursion proved unreachable below).
* `duplicateNode n`: ValueError "Node with name ... already exists"
* `unknownNode`: KeyError "Both source and target must be added before connecting"
* `cycleDetected`: ValueError "Cycle detected in workflow"
* `evalFailure label`: ValueError "Unable to evaluate ... from workflow code"
* `nodeCallShape`: ValueError "add_node must wrap a WorkflowNode construction"
* `missingFields l`: ValueError "WorkflowNode requires values for: ..."
* `paramsNotDict`: ValueError "WorkflowNode params must be a dictionary"
* `noDag`: ValueError "No WorkflowDAG instance found in the provided code"
* `addNodeNoArg`: ValueError "add_node must receive a WorkflowNode instance"
* `addNodeBadArg`: ValueError "add_node expects a WorkflowNode constructor call or named instance"
* `addEdgeArity`: ValueError "add_edge requires source and target node names" -/
inductive WfError where
  | duplicateNode (name : String)
  | unknownNode
  | cycleDetected
  | fuelExhausted
  | evalFailure (label : String)
  | nodeCallShape
  | missingFields (missing : List String)
  | paramsNotDict
  | noDag
  | addNodeNoArg
  | addNodeBadArg
  | addEdgeArity
deriving Repr, DecidableEq

/-- `WorkflowDAG` (workflow.py, lines 24-29).  `nodes` models the Python
dict name -> node in insertion order with unique keys; `edges` models the
dict name -> successor set, each set modelled canonically as its sorted
duplicate-free element list (a Python `set` has no observable order). -/
structure WorkflowDAG where
  nodes : List (String × WorkflowNode)
  edges : List (String × List String)
deriving Repr

/-- The node-name keys, in insertion order. -/
def WorkflowDAG.nodeNames (g : WorkflowDAG) : List String :=
  g.nodes.map Prod.fst

/-- Insert into a sorted duplicate-free list (the model of `set.add`). -/
def insertSorted (t : String) : List String → List String
  | [] => [t]
  | x :: xs =>
    if t < x then t :: x :: xs
    else if t = x then x :: xs
    else x :: insertSorted t xs

/-- Update the successor set of `src` in the adjacency list. -/
def updateEdges (src t : String) : List (String × List String) → List (String × List String)
  | [] => []
  | (k, ss) :: rest =>
    if k = src then (k, insertSorted t ss) :: rest
    else (k, ss) :: updateEdges src t rest

/-- `WorkflowDAG.add_node` (workflow.py, lines 31-35), as state plus raised
exception: check-then-insert, so the state is untouched on the error path. -/
def WorkflowDAG.add_node (g : WorkflowDAG) (node : WorkflowNode) :
    WorkflowDAG × Option WfError :=
  if node.name ∈ g.nodeNames then (g, some (.duplicateNode node.name))
  else
    (⟨g.nodes ++ [(node.name, node)], g.edges ++ [(node.name, [])]⟩, Option.none)

/-- `WorkflowDAG.add_edge` (workflow.py, lines 37-40): membership check on
both endpoints, then insertion of `target` into the successor set. -/
def WorkflowDAG.add_edge (g : WorkflowDAG) (source target : String) :
    WorkflowDAG × Option WfError :=
  if source ∈ g.nodeNames ∧ target ∈ g.nodeNames then
    (⟨g.nodes, updateEdges source target g.edges⟩, Option.none)
  else (g, some .unknownNode)

/-- The successor set of a node (`self.edges[name]`); `[]` when the key is
absent, which cannot happen for graphs built through the API. -/
def WorkflowDAG.succs (g : WorkflowDAG) (nm : String) : List String :=
  (List.lookup nm g.edges).getD []

/-- The mutable state of `topological_order` (workflow.py, lines 42-63):
`visited` and `temp` are Python sets (modelled as duplicate-free lists),
`order` is the post-order list being appended to. -/
structure DfsState where
  visited : List String
  temp : List String
  order : List String
deriving Repr

/-- Sequencing of the recursive `visit` calls over a neighbor list, with
exception propagation. -/
def visitFold (f : String → DfsState → Except WfError DfsState) :
    List String → DfsState → Except WfError DfsState
  | [], s => .ok s
  | m :: ms, s =>
    match f m s with
    | .error e => .error e
    | .ok s1 => visitFold f ms s1

/-- The inner `visit` of `topological_order`: raise on an in-progress node,
return on a finished node, otherwise mark in-progress, recurse into the
successors, then mark finished and append to the post-order.  The `fuel`
argument only bounds recursion depth; `fuelExhausted` is proved unreachable
for the fuel used by `topoNames` on well-formed graphs. -/
def visitF (g : WorkflowDAG) : Nat → String → DfsState → Except WfError DfsState
  | 0, _, _ => .error .fuelExhausted
  | fuel + 1, n, s =>
    if n ∈ s.temp then .error .cycleDetected
    else if n ∈ s.visited then .ok s
    else
      match visitFold (fun m st => visitF g fuel m st) (g.succs n)
          ⟨s.visited, n :: s.temp, s.order⟩ with
      | .error e => .error e
      | .ok s2 => .ok ⟨n :: s2.visited, s2.temp.erase n, s2.order ++ [n]⟩

/-- Fuel sufficient for any DFS from an empty in-progress set. -/
def WorkflowDAG.fuel (g : WorkflowDAG) : Nat :=
  g.nodes.length + 1

/-- The outer loop of `topological_order`: visit every node name not yet
finished, in insertion order. -/
def visitAll (g : WorkflowDAG) : List String → DfsState → Except WfError DfsState
  | [], s => .ok s
  | n :: ns, s =>
    if n ∈ s.visited then visitAll g ns s
    else
      match visitF g g.fuel n s with
      | .error e => .error e
      | .ok s1 => visitAll g ns s1

/-- The name sequence produced by `topological_order` (reversed post-order). -/
def WorkflowDAG.topoNames (g : WorkflowDAG) : Except WfError (List String) :=
  match visitAll g g.nodeNames ⟨[], [], []⟩ with
  | .error e => .error e
  | .ok s => .ok s.order.reverse

/-- `WorkflowDAG.topological_order` (workflow.py, lines 42-63): the visited
names in reversed post-order, resolved to their nodes
(`[self.nodes[name] for name in reversed(order)]`; every produced name is a
key, so the lookup never loses an entry). -/
def WorkflowDAG.topological_order (g : WorkflowDAG) :
    Except WfError (List WorkflowNode) :=
  match g.topoNames with
  | .error e => .error e
  | .ok names => .ok (names.filterMap (fun nm => List.lookup nm g.nodes))

/-- `WorkflowDAG.execute` (workflow.py, lines 101-107): run the callable on
each node in topological order, collecting the results. -/
def WorkflowDAG.execute {α : Type} (g : WorkflowDAG)
    (runner : WorkflowNode → α) : Except WfError (List α) :=
  match g.topological_order with
  | .error e => .error e
  | .ok order => .ok (order.map runner)

/-- The sequence of nodes `execute` hands to its runner: the topological
order when it exists, and nothing at all when `topological_order` raises
(the list is fully computed before the first runner call). -/
def WorkflowDAG.executedNodes (g : WorkflowDAG) : List WorkflowNode :=
  match g.topological_order with
  | .error _ => []
  | .ok order => order

/-- `_is_name` (workflow.py, lines 119-120). -/
def isName (e : PExpr) (nm : String) : Bool :=
  match e with
  | .name id => id = nm
  | _ => false

/-- `_is_dag_method_call` (workflow.py, lines 123-128), phrased on the
call's function expression. -/
def isDagMethodCall (func : PExpr) (dagNames : List String) (method : String) : Bool :=
  match func with
  | .attr (.name v) m => v ∈ dagNames && m = method
  | _ => false

/-- `_literal_eval_node` (workflow.py, lines 110-116): `ast.literal_eval`
with the failure wrapped into the labelled diagnostic. -/
def literalEvalNode (e : PExpr) (label : String) : Except WfError Lit :=
  match literalEval e with
  | some v => .ok v
  | Option.none => .error (.evalFailure label)

/-- The positional-argument stage of `_parse_workflow_node_call`
(workflow.py, lines 139-145): up to three positional arguments are
evaluated, in order, as name, action and params; further ones are ignored. -/
def evalPositional (args : List PExpr) :
    Except WfError (Option Lit × Option Lit × Lit) :=
  match args with
  | [] => .ok (Option.none, Option.none, .dict [])
  | [a0] =>
    match literalEvalNode a0 "node name" with
    | .error e => .error e
    | .ok v0 => .ok (some v0, Option.none, .dict [])
  | [a0, a1] =>
    match literalEvalNode a0 "node name" with
    | .error e => .error e
    | .ok v0 =>
      match literalEvalNode a1 "node action" with
      | .error e => .error e
      | .ok v1 => .ok (some v0, some v1, .dict [])
  | a0 :: a1 :: a2 :: _ =>
    match literalEvalNode a0 "node name" with
    | .error e => .error e
    | .ok v0 =>
      match literalEvalNode a1 "node action" with
      | .error e => .error e
      | .ok v1 =>
        match literalEvalNode a2 "node params" with
        | .error e => .error e
        | .ok v2 => .ok (some v0, some v1, v2)

/-- The keyword stage of `_parse_workflow_node_call` (workflow.py, lines
146-152): each `name` / `action` / `params` keyword overrides, in order;
any other keyword is ignored. -/
def foldKwargs : List (Option String × PExpr) → Option Lit × Option Lit × Lit →
    Except WfError (Option Lit × Option Lit × Lit)
  | [], acc => .ok acc
  | (argName, value) :: rest, (nm, act, ps) =>
    if argName = some "name" then
      match literalEvalNode value "node name" with
      | .error e => .error e
      | .ok v => foldKwargs rest (some v, act, ps)
    else if argName = some "action" then
      match literalEvalNode value "node action" with
      | .error e => .error e
      | .ok v => foldKwargs rest (nm, some v, ps)
    else if argName = some "params" then
      match literalEvalNode value "node params" with
      | .error e => .error e
      | .ok v => foldKwargs rest (nm, act, v)
    else foldKwargs rest (nm, act, ps)

/-- The field list of the missing-values diagnostic (workflow.py, lines
163-167). -/
def missingOf (nm act : Option Lit) : List String :=
  (if nm.isNone then ["name"] else []) ++ (if act.isNone then ["action"] else [])

/-- The final stage of `_parse_workflow_node_call` (workflow.py, lines
154-174): defaulting of `name` from `default_name` and of `action` from
`name`, the missing-field check, the params-must-be-a-dict check, and the
final `str()` coercions. -/
def finalizeNode (default_name : Option String)
    (acc : Option Lit × Option Lit × Lit) : Except WfError WorkflowNode :=
  match acc with
  | (nm1, act1, ps1) =>
    let nm2 : Option Lit :=
      match nm1 with
      | some v => some v
      | Option.none => default_name.map Lit.str
    let act2 : Option Lit :=
      match act1 with
      | some v => some v
      | Option.none => nm2
    match nm2, act2 with
    | some nv, some av =>
      match ps1 with
      | .dict entries => .ok ⟨nv.pyStr, av.pyStr, entries⟩
      | _ => .error .paramsNotDict
    | _, _ => .error (.missingFields (missingOf nm2 act2))

/-- `_parse_workflow_node_call` (workflow.py, lines 131-174) on a call
`func(args, kwargs)`: the constructor-shape check, the positional stage,
the keyword stage, then `finalizeNode`. -/
def parseWorkflowNodeCall (func : PExpr) (args : List PExpr)
    (kwargs : List (Option String × PExpr)) (default_name : Option String) :
    Except WfError WorkflowNode :=
  if isName func "WorkflowNode" then
    match evalPositional args with
    | .error e => .error e
    | .ok acc0 =>
      match foldKwargs kwargs acc0 with
      | .error e => .error e
      | .ok acc1 => finalizeNode default_name acc1
  else .error .nodeCallShape

/-- Statement-by-statement processing with exception propagation: the loop
shape shared by both passes of `parse_workflow_code`, by the alias-binding
inner loop and by the final edge-application loop. -/
def exceptFold {alpha sigma : Type} (step : alpha → sigma → Except WfError sigma) :
    List alpha → sigma → Except WfError sigma
  | [], st => .ok st
  | x :: rest, st =>
    match step x st with
    | .error e => .error e
    | .ok st1 => exceptFold step rest st1

/-- Adding assignment targets to the builder-alias set (workflow.py, lines
191-194); the Python `set` is modelled as a duplicate-free list, membership
being its only observation. -/
def addDagNames (dagNames : List String) (targets : List String) : List String :=
  targets.foldl (fun acc t => if t ∈ acc then acc else acc ++ [t]) dagNames

/-- Python dict assignment `named_nodes[t] = v`: override in place or
append. -/
def updateAssoc (k : String) (v : WorkflowNode) :
    List (String × WorkflowNode) → List (String × WorkflowNode)
  | [] => [(k, v)]
  | (k2, v2) :: rest =>
    if k2 = k then (k, v) :: rest else (k2, v2) :: updateAssoc k v rest

/-- Binding a node-constructor assignment to one target (workflow.py, lines
196-200): the plain-name target re-parses the call with itself as the
default name. -/
def bindNamedNode (func : PExpr) (args : List PExpr)
    (kwargs : List (Option String × PExpr)) (t : String)
    (nn : List (String × WorkflowNode)) :
    Except WfError (List (String × WorkflowNode)) :=
  match parseWorkflowNodeCall func args kwargs (some t) with
  | .error e => .error e
  | .ok node => .ok (updateAssoc t node nn)

/-- The inner `for target in stmt.targets` loop of pass one. -/
def bindNamedNodes (func : PExpr) (args : List PExpr)
    (kwargs : List (Option String × PExpr))
    (ts : List String) (nn : List (String × WorkflowNode)) :
    Except WfError (List (String × WorkflowNode)) :=
  exceptFold (bindNamedNode func args kwargs) ts nn

/-- One statement of pass one of `parse_workflow_code` (workflow.py, lines
189-200): collect builder aliases and node aliases from a top-level
assignment whose value is a call; every other statement is skipped. -/
def pass1Step (stmt : Stmt) (acc : List String × List (String × WorkflowNode)) :
    Except WfError (List String × List (String × WorkflowNode)) :=
  match stmt, acc with
  | .assign targets (.call func args kwargs), (dagNames, namedNodes) =>
    if isName func "WorkflowDAG" then
      .ok (addDagNames dagNames targets, namedNodes)
    else if isName func "WorkflowNode" then
      match bindNamedNodes func args kwargs targets namedNodes with
      | .error e => .error e
      | .ok nn1 => .ok (dagNames, nn1)
    else .ok (dagNames, namedNodes)
  | _, acc => .ok acc

/-- Pass one of `parse_workflow_code` (workflow.py, lines 187-200). -/
def pass1 (stmts : List Stmt)
    (acc : List String × List (String × WorkflowNode)) :
    Except WfError (List String × List (String × WorkflowNode)) :=
  exceptFold pass1Step stmts acc

/-- The call scrutinized by pass two of `parse_workflow_code` (workflow.py,
lines 208-215): the value of an expression statement or assignment when that
value is a call. -/
def stmtCallValue : Stmt → Option (PExpr × List PExpr × List (Option String × PExpr))
  | .exprStmt (.call func args kwargs) => some (func, args, kwargs)
  | .assign _ (.call func args kwargs) => some (func, args, kwargs)
  | _ => Option.none

/-- The argument accepted by `add_node` (workflow.py, lines 221-229): an
inline node construction or a reference to a previously bound node alias;
anything else is rejected. -/
def parseNodeRef (namedNodes : List (String × WorkflowNode)) :
    PExpr → Except WfError WorkflowNode
  | .call nf nargs nkw => parseWorkflowNodeCall nf nargs nkw Option.none
  | .name id =>
    match List.lookup id namedNodes with
    | some node => .ok node
    | Option.none => .error .addNodeBadArg
  | _ => .error .addNodeBadArg

/-- `dag.add_node(node)` inside pass two (workflow.py, line 230): the state
after the call, or the propagated raise. -/
def addNodeResult (g : WorkflowDAG) (node : WorkflowNode)
    (es : List (String × String)) :
    Except WfError (WorkflowDAG × List (String × String)) :=
  match g.add_node node with
  | (g1, Option.none) => .ok (g1, es)
  | (_, some e) => .error e

/-- The `add_node` branch of pass two (workflow.py, lines 219-230). -/
def pass2AddNode (namedNodes : List (String × WorkflowNode))
    (args : List PExpr) (g : WorkflowDAG) (es : List (String × String)) :
    Except WfError (WorkflowDAG × List (String × String)) :=
  match args with
  | [] => .error .addNodeNoArg
  | nodeRef :: _ =>
    match parseNodeRef namedNodes nodeRef with
    | .error e => .error e
    | .ok node => addNodeResult g node es

/-- The `add_edge` branch of pass two (workflow.py, lines 231-236). -/
def pass2AddEdge (args : List PExpr) (g : WorkflowDAG)
    (es : List (String × String)) :
    Except WfError (WorkflowDAG × List (String × String)) :=
  match args with
  | a0 :: a1 :: _ =>
    match literalEvalNode a0 "edge source" with
    | .error e => .error e
    | .ok sv =>
      match literalEvalNode a1 "edge target" with
      | .error e => .error e
      | .ok tv => .ok (g, es ++ [(sv.pyStr, tv.pyStr)])
  | _ => .error .addEdgeArity

/-- The `if`/`elif` chain of pass two on a statement whose value is a call
(workflow.py, lines 218-236). -/
def pass2Call (dagNames : List String)
    (namedNodes : List (String × WorkflowNode)) (func : PExpr)
    (args : List PExpr) (g : WorkflowDAG) (es : List (String × String)) :
    Except WfError (WorkflowDAG × List (String × String)) :=
  if isDagMethodCall func dagNames "add_node" then
    pass2AddNode namedNodes args g es
  else if isDagMethodCall func dagNames "add_edge" then
    pass2AddEdge args g es
  else .ok (g, es)

/-- One statement of pass two of `parse_workflow_code` (workflow.py, lines
208-236): apply an `add_node` call immediately, collect an `add_edge` call;
every statement outside the recognized shapes falls through the `if`/`elif`
chain and is skipped. -/
def pass2Step (dagNames : List String)
    (namedNodes : List (String × WorkflowNode)) (stmt : Stmt)
    (acc : WorkflowDAG × List (String × String)) :
    Except WfError (WorkflowDAG × List (String × String)) :=
  match stmtCallValue stmt, acc with
  | Option.none, acc => .ok acc
  | some (func, args, _), (g, es) => pass2Call dagNames namedNodes func args g es

/-- Pass two of `parse_workflow_code` (workflow.py, lines 205-236). -/
def pass2 (dagNames : List String) (namedNodes : List (String × WorkflowNode))
    (stmts : List Stmt) (g : WorkflowDAG) (es : List (String × String)) :
    Except WfError (WorkflowDAG × List (String × String)) :=
  exceptFold (pass2Step dagNames namedNodes) stmts (g, es)

/-- One collected edge applied by the final loop of `parse_workflow_code`
(workflow.py, lines 238-239). -/
def applyEdge (p : String × String) (g : WorkflowDAG) :
    Except WfError WorkflowDAG :=
  match g.add_edge p.1 p.2 with
  | (g1, Option.none) => .ok g1
  | (_, some e) => .error e

/-- The final loop of `parse_workflow_code` (workflow.py, lines 238-239):
apply the collected edges, in collection order. -/
def applyEdges (es : List (String × String)) (g : WorkflowDAG) :
    Except WfError WorkflowDAG :=
  exceptFold applyEdge es g

/-- The tail of `parse_workflow_code` after pass two (workflow.py, lines
238-241): apply the collected edges to the built graph, or propagate the
raise. -/
def afterPass2 : Except WfError (WorkflowDAG × List (String × String)) →
    Except WfError WorkflowDAG
  | .error e => .error e
  | .ok (g, es) => applyEdges es g

/-- The tail of `parse_workflow_code` after pass one (workflow.py, lines
202-241): the missing-builder check, then pass two on a fresh graph, then
edge application. -/
def afterPass1 (stmts : List Stmt) :
    Except WfError (List String × List (String × WorkflowNode)) →
    Except WfError WorkflowDAG
  | .error e => .error e
  | .ok (dagNames, namedNodes) =>
    if dagNames = [] then .error .noDag
    else afterPass2 (pass2 dagNames namedNodes stmts ⟨[], []⟩ [])

/-- `parse_workflow_code` (workflow.py, lines 177-241): pass one, the
missing-builder check, pass two, then edge application. -/
def parse_workflow_code (stmts : List Stmt) : Except WfError WorkflowDAG :=
  afterPass1 stmts (pass1 stmts ([], []))

/-! ## Plan validation loop (workflow_builder.py) -/

/-- A candidate plan's code, as seen by `validate_workflow_plan`: `none`
models text on which `compile()` raises a SyntaxError, `some stmts` models
text that compiles, carried as its top-level statement list. -/
def PlanCode := Option (List Stmt)

/-- The exception caught by `validate_workflow_plan`: either the syntax
check or the extractor failed. -/
inductive PlanError where
  | syntaxFailure
  | extract (e : WfError)
deriving Repr

/-- Mirror of the `WorkflowPlanResult` fields that the loop inspects. -/
structure WorkflowPlanResultM where
  code : PlanCode
  compiled : Bool
  dag : Option WorkflowDAG
  error : Option PlanError

/-- `validate_workflow_plan` (workflow_builder.py, lines 119-133): compile,
then extract; any exception yields a non-compiled result carrying it. -/
def validate_workflow_plan (code : PlanCode) : WorkflowPlanResultM :=
  match code with
  | Option.none => ⟨code, false, Option.none, some .syntaxFailure⟩
  | some stmts =>
    match parse_workflow_code stmts with
    | .error e => ⟨code, false, Option.none, some (.extract e)⟩
    | .ok dag => ⟨code, true, some dag, Option.none⟩

/-- The `while` loop of `build_and_validate_workflow_plan`
(workflow_builder.py, lines 148-161): while the last result did not compile
and attempts remain, revise and re-validate.  Returns the final result and
the number of revision calls issued. -/
def buildLoop (revise : PlanCode → Option PlanError → PlanCode)
    (max_attempts : Nat) (attempt : Nat) (plan : PlanCode)
    (result : WorkflowPlanResultM) : WorkflowPlanResultM × Nat :=
  if h : ¬ result.compiled ∧ attempt < max_attempts then
    let plan1 := revise plan result.error
    let result1 := validate_workflow_plan plan1
    let rec2 := buildLoop revise max_attempts (attempt + 1) plan1 result1
    (rec2.1, rec2.2 + 1)
  else (result, 0)
termination_by max_attempts - attempt
decreasing_by omega

/-- `build_and_validate_workflow_plan` (workflow_builder.py, lines 136-162):
one generation call, then the revision loop.  The second component counts
every generation-collaborator call (`plan_workflow` plus each
`revise_workflow`). -/
def build_and_validate_workflow_plan (gen : PlanCode)
    (revise : PlanCode → Option PlanError → PlanCode) (max_attempts : Nat) :
    WorkflowPlanResultM × Nat :=
  let result0 := validate_workflow_plan gen
  let looped := buildLoop revise max_attempts 1 gen result0
  (looped.1, looped.2 + 1)

/-! ## Graph predicates -/

/-- Well-formedness maintained by the `WorkflowDAG` API: unique node names,
each node stored under its own name, adjacency keyed exactly by the node
names, and successor sets contained in the node names. -/
def WorkflowDAG.WF (g : WorkflowDAG) : Prop :=
  g.nodeNames.Nodup ∧ (∀ p ∈ g.nodes, p.1 = p.2.name) ∧
    g.edges.map Prod.fst = g.nodeNames ∧
    ∀ p ∈ g.edges, ∀ t ∈ p.2, t ∈ g.nodeNames

/-- The edge relation of the graph. -/
def WorkflowDAG.adj (g : WorkflowDAG) (a b : String) : Prop :=
  b ∈ g.succs a

/-- A directed cycle exists: some node reaches itself through one or more
edges. -/
def WorkflowDAG.hasCycle (g : WorkflowDAG) : Prop :=
  ∃ n, Relation.TransGen g.adj n n

/-- `x` appears strictly before `y` in the list. -/
def Precedes {α : Type} (x y : α) (l : List α) : Prop :=
  ∃ l1 l2 l3, l = l1 ++ x :: l2 ++ y :: l3

/-- Every element of the post-order list has all of its successors strictly
earlier in the list: no later element is a successor of an earlier one, the
list is closed under successors, and no member is its own successor. -/
def PostOrdered (g : WorkflowDAG) (order : List String) : Prop :=
  List.Pairwise (fun a b => b ∉ g.succs a) order ∧
    (∀ a ∈ order, ∀ b ∈ g.succs a, b ∈ order) ∧
    ∀ a ∈ order, a ∉ g.succs a

/-- How `visit` is invoked: either from the outer loop (empty in-progress
stack) or recursively on a successor of the node on top of the stack. -/
def callHyp (g : WorkflowDAG) (n : String) (temp : List String) : Prop :=
  temp = [] ∨ ∃ p rest, temp = p :: rest ∧ n ∈ g.succs p

/-- The invariant tying a DFS state to the graph: the in-progress stack is a
duplicate-free chain of nodes each a successor of the one below it, the
finished set coincides with the post-order list, both stay inside the node
set, in-progress and finished nodes are disjoint, and the post-order built
so far respects the edges. -/
structure DfsInv (g : WorkflowDAG) (s : DfsState) : Prop where
  temp_nodup : s.temp.Nodup
  temp_sub : ∀ x ∈ s.temp, x ∈ g.nodeNames
  temp_chain : List.Chain' (fun a b => a ∈ g.succs b) s.temp
  visited_sub : ∀ x ∈ s.visited, x ∈ g.nodeNames
  visited_iff_order : ∀ x, x ∈ s.visited ↔ x ∈ s.order
  order_nodup : s.order.Nodup
  temp_visited_disj : ∀ x ∈ s.temp, x ∉ s.visited
  ordered : PostOrdered g s.order

/-- Outcome specification of one `visit` call from state `s` on node `n`. -/
def VisitConc (g : WorkflowDAG) (s : DfsState) (n : String) :
    Except WfError DfsState → Prop
  | .ok s2 => DfsInv g s2 ∧ s2.temp = s.temp ∧
      (∀ x ∈ s.visited, x ∈ s2.visited) ∧ n ∈ s2.visited ∧
      ∃ new, s2.order = s.order ++ new
  | .error e => e = .cycleDetected ∧ g.hasCycle

/-- Outcome specification of a fold of `visit` over a node list. -/
def FoldConc (g : WorkflowDAG) (s : DfsState) (ms : List String) :
    Except WfError DfsState → Prop
  | .ok s2 => DfsInv g s2 ∧ s2.temp = s.temp ∧
      (∀ x ∈ s.visited, x ∈ s2.visited) ∧ (∀ m ∈ ms, m ∈ s2.visited) ∧
      ∃ new, s2.order = s.order ++ new
  | .error e => e = .cycleDetected ∧ g.hasCycle

/-! ## Schematic recognized-vocabulary sources -/

/-- The statement `<d>.add_node(WorkflowNode("<name>", "<action>"))`. -/
def nodeStmt (d : String) (p : String × String) : Stmt :=
  .exprStmt (.call (.attr (.name d) "add_node")
    [.call (.name "WorkflowNode") [.constStr p.1, .constStr p.2] []] [])

/-- The statement `<d>.add_edge("<source>", "<target>")`. -/
def edgeStmt (d : String) (p : String × String) : Stmt :=
  .exprStmt (.call (.attr (.name d) "add_edge") [.constStr p.1, .constStr p.2] [])

/-- A well-formed recognized-vocabulary source: one builder assignment, one
`add_node` per declared `(name, action)` pair, one `add_edge` per declared
edge. -/
def mkRecognizedSource (d : String) (decls : List (String × String))
    (es : List (String × String)) : List Stmt :=
  .assign [d] (.call (.name "WorkflowDAG") [] []) ::
    (decls.map (nodeStmt d) ++ es.map (edgeStmt d))

/-- The graph that `mkRecognizedSource` declares, before edge application. -/
def declaredGraph (decls : List (String × String)) : WorkflowDAG :=
  ⟨decls.map (fun p => (p.1, ⟨p.1, p.2, []⟩)),
   decls.map (fun p => (p.1, []))⟩

/-- The effect of the `add_node` walk of pass two on a declaration list:
add each `(name, action)` node in order, stopping at the first raise. -/
def addDecls : List (String × String) → WorkflowDAG → Except WfError WorkflowDAG
  | [], g => .ok g
  | (nm, act) :: rest, g =>
    match g.add_node ⟨nm, act, []⟩ with
    | (g1, Option.none) => addDecls rest g1
    | (_, some e) => .error e

/-! ## Concrete inputs used by counterexamples and witnesses -/

/-- The source of the repository test
`test_treats_unquoted_identifiers_as_strings` (src/tests/test_workflow.py):
`dag = WorkflowDAG()` then
`dag.add_node(WorkflowNode("status_update", params={"channel": slack_channel}))`
with `slack_channel` a bare identifier. -/
def srcSlack : List Stmt :=
  [.assign ["dag"] (.call (.name "WorkflowDAG") [] []),
   .exprStmt (.call (.attr (.name "dag") "add_node")
     [.call (.name "WorkflowNode") [.constStr "status_update"]
       [(some "params", .dictE [(.constStr "channel", .name "slack_channel")])]] [])]

/-- `dag = WorkflowDAG()` followed by the unrecognized call
`dag.remove_node("a")`. -/
def srcIgnored : List Stmt :=
  [.assign ["dag"] (.call (.name "WorkflowDAG") [] []),
   .exprStmt (.call (.attr (.name "dag") "remove_node") [.constStr "a"] [])]

/-- `dag = WorkflowDAG()` followed by `dag.add_node(WorkflowNode(""))`: a
node declared with the empty string as its name (and hence, by defaulting,
as its action). -/
def srcEmptyName : List Stmt :=
  [.assign ["dag"] (.call (.name "WorkflowDAG") [] []),
   .exprStmt (.call (.attr (.name "dag") "add_node")
     [.call (.name "WorkflowNode") [.constStr ""] []] [])]

/-- A minimal healthy source: `dag = WorkflowDAG()` plus one node. -/
def srcSimple : List Stmt :=
  [.assign ["dag"] (.call (.name "WorkflowDAG") [] []),
   .exprStmt (.call (.attr (.name "dag") "add_node")
     [.call (.name "WorkflowNode") [.constStr "greet"] []] [])]

/-- A two-node graph with the single edge a -> b, as built by the API. -/
def gChain : WorkflowDAG :=
  ⟨[("a", ⟨"a", "a", []⟩), ("b", ⟨"b", "b", []⟩)], [("a", ["b"]), ("b", [])]⟩

/-- A two-node graph with edges a -> b and b -> a (a cycle), as built by
the API. -/
def gLoop : WorkflowDAG :=
  ⟨[("a", ⟨"a", "a", []⟩), ("b", ⟨"b", "b", []⟩)], [("a", ["b"]), ("b", ["a"])]⟩

/-! ## Plan sequences of the validation loop -/

/-- The deterministic sequence of candidate plans a generator/reviser pair
produces: attempt `i+1` revises attempt `i` with its diagnostic, exactly as
`build_and_validate_workflow_plan` wires `revise_workflow`. -/
def planSeq (gen : PlanCode) (revise : PlanCode → Option PlanError → PlanCode) :
    Nat → PlanCode
  | 0 => gen
  | i + 1 =>
    revise (planSeq gen revise i) (validate_workflow_plan (planSeq gen revise i)).error


/-- Outcome specification of the outer loop of `topological_order`. -/
def AllConc (g : WorkflowDAG) (s : DfsState) (ns : List String) :
    Except WfError DfsState → Prop
  | .ok s2 => DfsInv g s2 ∧ s2.temp = [] ∧
      (∀ x ∈ s.visited, x ∈ s2.visited) ∧ ∀ m ∈ ns, m ∈ s2.visited
  | .error e => e = .cycleDetected ∧ g.hasCycle

/-! ## Basic lemmas -/

theorem lookup_mem_keys {β : Type} (l : List (String × β)) (k : String) (v : β)
    (h : List.lookup k l = some v) : k ∈ l.map Prod.fst := by
  induction l with
  | nil => simp [List.lookup] at h
  | cons p rest ih =>
    rw [List.lookup] at h
    by_cases hk : k = p.1
    · simp [hk]
    · simp only [show (k == p.1) = false by simpa using hk] at h
      simp [ih h]

theorem keys_mem_lookup {β : Type} (l : List (String × β)) (k : String)
    (h : k ∈ l.map Prod.fst) : ∃ v, List.lookup k l = some v := by
  induction l with
  | nil => simp at h
  | cons p rest ih =>
    rw [List.map_cons, List.mem_cons] at h
    by_cases hk : k = p.1
    · exact ⟨p.2, by simp [List.lookup, hk]⟩
    · rcases h with h | h
      · exact absurd h hk
      · rcases ih h with ⟨v, hv⟩
        exact ⟨v, by simp [List.lookup, show (k == p.1) = false by simpa using hk, hv]⟩

theorem lookup_eq_some_mem {β : Type} (l : List (String × β)) (k : String) (v : β)
    (h : List.lookup k l = some v) : (k, v) ∈ l := by
  induction l with
  | nil => simp [List.lookup] at h
  | cons p rest ih =>
    rw [List.lookup] at h
    by_cases hk : k = p.1
    · simp only [show (k == p.1) = true by simpa using hk] at h
      cases h
      cases p with
      | mk k1 v1 =>
        simp only at hk
        subst hk
        exact List.mem_cons_self _ _
    · simp only [show (k == p.1) = false by simpa using hk] at h
      exact List.mem_cons_of_mem _ (ih h)

theorem succs_subset {g : WorkflowDAG} (hg : g.WF) {a b : String}
    (hb : b ∈ g.succs a) : b ∈ g.nodeNames := by
  unfold WorkflowDAG.succs at hb
  cases hl : List.lookup a g.edges with
  | none => rw [hl] at hb; simp at hb
  | some ss =>
    rw [hl] at hb
    simp only [Option.getD_some] at hb
    exact hg.2.2.2 (a, ss) (lookup_eq_some_mem _ _ _ hl) b hb

theorem adj_source_mem {g : WorkflowDAG} (hg : g.WF) {a b : String}
    (hb : g.adj a b) : a ∈ g.nodeNames := by
  unfold WorkflowDAG.adj WorkflowDAG.succs at hb
  cases hl : List.lookup a g.edges with
  | none => rw [hl] at hb; simp at hb
  | some ss =>
    have := lookup_mem_keys _ _ _ hl
    rw [hg.2.2.1] at this
    exact this

theorem adj_target_mem {g : WorkflowDAG} (hg : g.WF) {a b : String}
    (hb : g.adj a b) : b ∈ g.nodeNames :=
  succs_subset hg hb

/-- Every member of a chained in-progress stack reaches the top of the
stack through edges. -/
theorem tempChainReach (g : WorkflowDAG) :
    ∀ (temp : List String) (x0 : String) (rest : List String),
      temp = x0 :: rest → List.Chain' (fun a b => a ∈ g.succs b) temp →
      ∀ n ∈ temp, Relation.ReflTransGen g.adj n x0 := by
  intro temp
  induction temp with
  | nil => intro x0 rest h; cases h
  | cons y ys ih =>
    intro x0 rest h hchain n hn
    cases h
    rcases List.mem_cons.mp hn with h1 | h1
    · subst h1; exact Relation.ReflTransGen.refl
    · cases ys with
      | nil => simp at h1
      | cons z zs =>
        rw [List.chain'_cons] at hchain
        have hnz : Relation.ReflTransGen g.adj n z :=
          ih z zs rfl hchain.2 n h1
        exact hnz.tail hchain.1

theorem postOrdered_nil (g : WorkflowDAG) : PostOrdered g [] :=
  ⟨List.Pairwise.nil, by simp, by simp⟩

/-- Appending a freshly finished node, all of whose successors are already
in the post-order, preserves `PostOrdered`, provided the node itself is not
yet in it. -/
theorem postOrdered_append {g : WorkflowDAG} {order : List String} {n : String}
    (h : PostOrdered g order) (hn : n ∉ order)
    (hsucc : ∀ b ∈ g.succs n, b ∈ order) :
    PostOrdered g (order ++ [n]) := by
  obtain ⟨hpair, hclosed, hirr⟩ := h
  refine ⟨?_, ?_, ?_⟩
  · rw [List.pairwise_append]
    refine ⟨hpair, List.pairwise_singleton _ _, ?_⟩
    intro a ha b hb
    rw [List.mem_singleton] at hb
    subst hb
    intro hmem
    exact hn (hclosed a ha b hmem)
  · intro a ha b hb
    rcases List.mem_append.mp ha with h1 | h1
    · exact List.mem_append_left _ (hclosed a h1 b hb)
    · rw [List.mem_singleton] at h1
      subst h1
      exact List.mem_append_left _ (hsucc b hb)
  · intro a ha hmem
    rcases List.mem_append.mp ha with h1 | h1
    · exact hirr a h1 hmem
    · rw [List.mem_singleton] at h1
      subst h1
      exact hn (hsucc a hmem)

theorem precedes_cons {α : Type} {x y c : α} {l : List α}
    (h : Precedes x y l) : Precedes x y (c :: l) := by
  obtain ⟨l1, l2, l3, rfl⟩ := h
  exact ⟨c :: l1, l2, l3, rfl⟩

theorem precedes_of_head_mem {α : Type} {x y : α} {l : List α}
    (h : y ∈ l) : Precedes x y (x :: l) := by
  obtain ⟨m1, m2, rfl⟩ := List.append_of_mem h
  exact ⟨[], m1, m2, rfl⟩

/-- Two distinct members of a list: one of them strictly precedes the
other. -/
theorem precedes_total {α : Type} {x y : α} {l : List α}
    (hx : x ∈ l) (hy : y ∈ l) (hne : x ≠ y) :
    Precedes x y l ∨ Precedes y x l := by
  induction l with
  | nil => simp at hx
  | cons c cs ih =>
    rcases List.mem_cons.mp hx with h1 | h1
    · subst h1
      have hy2 : y ∈ cs := by
        rcases List.mem_cons.mp hy with h2 | h2
        · exact absurd h2.symm hne
        · exact h2
      exact Or.inl (precedes_of_head_mem hy2)
    · rcases List.mem_cons.mp hy with h2 | h2
      · subst h2
        exact Or.inr (precedes_of_head_mem h1)
      · rcases ih h1 h2 with h3 | h3
        · exact Or.inl (precedes_cons h3)
        · exact Or.inr (precedes_cons h3)

theorem precedes_reverse {α : Type} {x y : α} {l : List α}
    (h : Precedes x y l) : Precedes y x l.reverse := by
  obtain ⟨l1, l2, l3, rfl⟩ := h
  refine ⟨l3.reverse, l2.reverse, l1.reverse, ?_⟩
  simp

/-- In a `Pairwise R` list, every earlier-later pair is related. -/
theorem pairwise_of_precedes {α : Type} {R : α → α → Prop} {x y : α}
    {l : List α} (hp : List.Pairwise R l) (h : Precedes x y l) : R x y := by
  obtain ⟨l1, l2, l3, rfl⟩ := h
  rw [List.pairwise_append] at hp
  exact hp.2.2 x (by simp) y (by simp)

theorem temp_length_le {g : WorkflowDAG} {s : DfsState} (hInv : DfsInv g s) :
    s.temp.length ≤ g.nodeNames.length :=
  (hInv.temp_nodup.subperm hInv.temp_sub).length_le

/-- Specification of a fold of `visit` calls: given the one-step
specification for states with the same in-progress stack, the fold
preserves the invariant and the stack, grows the finished set
monotonically to cover the processed list, and extends the post-order;
on a raise it reports a true cycle. -/
theorem visitFold_spec {g : WorkflowDAG}
    (f : String → DfsState → Except WfError DfsState) (tlen : Nat)
    (hf : ∀ n st, DfsInv g st → n ∈ g.nodeNames → callHyp g n st.temp →
      st.temp.length = tlen → VisitConc g st n (f n st)) :
    ∀ (ms : List String) (s : DfsState), DfsInv g s →
      (∀ m ∈ ms, m ∈ g.nodeNames) → (∀ m ∈ ms, callHyp g m s.temp) →
      s.temp.length = tlen →
      FoldConc g s ms (visitFold f ms s) := by
  intro ms
  induction ms with
  | nil =>
    intro s hInv _ _ _
    exact ⟨hInv, rfl, fun x hx => hx, by simp, ⟨[], by simp⟩⟩
  | cons m ms ih =>
    intro s hInv hmem hch hlen
    have hstep := hf m s hInv (hmem m (List.mem_cons_self m ms))
      (hch m (List.mem_cons_self m ms)) hlen
    rw [visitFold]
    cases hfm : f m s with
    | error e =>
      rw [hfm] at hstep
      exact hstep
    | ok s1 =>
      rw [hfm] at hstep
      obtain ⟨hInv1, htemp1, hmono1, hm1, new1, horder1⟩ := hstep
      have hrec := ih s1 hInv1
        (fun x hx => hmem x (List.mem_cons_of_mem m hx))
        (fun x hx => htemp1 ▸ hch x (List.mem_cons_of_mem m hx))
        (htemp1 ▸ hlen)
      show FoldConc g s (m :: ms) (visitFold f ms s1)
      cases hfl : visitFold f ms s1 with
      | error e =>
        rw [hfl] at hrec
        exact hrec
      | ok s2 =>
        rw [hfl] at hrec
        obtain ⟨hInv2, htemp2, hmono2, hall2, new2, horder2⟩ := hrec
        exact ⟨hInv2, htemp2.trans htemp1,
          fun x hx => hmono2 x (hmono1 x hx),
          fun x hx => by
            rcases List.mem_cons.mp hx with h | h
            · subst h; exact hmono2 x hm1
            · exact hall2 x h,
          ⟨new1 ++ new2, by rw [horder2, horder1, List.append_assoc]⟩⟩

/-- Full specification of one `visit` call, by induction on fuel: with
enough fuel it never exhausts, on success it preserves the in-progress
stack, finishes the node, grows the finished set and extends the
post-order keeping the invariant, and on a raise the raise is the cycle
error and the graph really has a cycle. -/
theorem visitF_spec {g : WorkflowDAG} (hg : g.WF) :
    ∀ (fuel : Nat) (n : String) (s : DfsState), DfsInv g s →
      n ∈ g.nodeNames → callHyp g n s.temp →
      g.nodeNames.length + 1 ≤ fuel + s.temp.length →
      VisitConc g s n (visitF g fuel n s) := by
  intro fuel
  induction fuel with
  | zero =>
    intro n s hInv hn hch hbound
    have := temp_length_le hInv
    omega
  | succ fuel ih =>
    intro n s hInv hn hch hbound
    rw [visitF]
    by_cases h1 : n ∈ s.temp
    · rw [if_pos h1]
      refine ⟨rfl, ?_⟩
      have hne : s.temp ≠ [] := by
        intro h; rw [h] at h1; simp at h1
      rcases hch with h | ⟨p, rest, hpr, hnp⟩
      · exact absurd h hne
      · have hreach : Relation.ReflTransGen g.adj n p :=
          tempChainReach g s.temp p rest hpr hInv.temp_chain n h1
        exact ⟨n, Relation.TransGen.tail' hreach hnp⟩
    · by_cases h2 : n ∈ s.visited
      · rw [if_neg h1, if_pos h2]
        exact ⟨hInv, rfl, fun x hx => hx, h2, ⟨[], by simp⟩⟩
      · rw [if_neg h1, if_neg h2]
        have hInv1 : DfsInv g ⟨s.visited, n :: s.temp, s.order⟩ :=
          { temp_nodup := List.nodup_cons.mpr ⟨h1, hInv.temp_nodup⟩
            temp_sub := by
              intro x hx
              rcases List.mem_cons.mp hx with h | h
              · subst h; exact hn
              · exact hInv.temp_sub x h
            temp_chain := by
              cases hst : s.temp with
              | nil => simp
              | cons p rest =>
                rw [List.chain'_cons]
                refine ⟨?_, hst ▸ hInv.temp_chain⟩
                rcases hch with h | ⟨p1, rest1, hpr1, hnp1⟩
                · rw [h] at hst; cases hst
                · rw [hst] at hpr1
                  cases hpr1
                  exact hnp1
            visited_sub := hInv.visited_sub
            visited_iff_order := hInv.visited_iff_order
            order_nodup := hInv.order_nodup
            temp_visited_disj := by
              intro x hx
              rcases List.mem_cons.mp hx with h | h
              · subst h; exact h2
              · exact hInv.temp_visited_disj x h
            ordered := hInv.ordered }
        have hfold := visitFold_spec (fun m st => visitF g fuel m st)
          (s.temp.length + 1)
          (fun n2 st hi hn2 hch2 hlen2 => ih n2 st hi hn2 hch2 (by omega))
          (g.succs n) ⟨s.visited, n :: s.temp, s.order⟩ hInv1
          (fun m hm => succs_subset hg hm)
          (fun m hm => Or.inr ⟨n, s.temp, rfl, hm⟩)
          (by simp)
        cases hfl : visitFold (fun m st => visitF g fuel m st) (g.succs n)
            ⟨s.visited, n :: s.temp, s.order⟩ with
        | error e =>
          rw [hfl] at hfold
          exact hfold
        | ok s2 =>
          rw [hfl] at hfold
          obtain ⟨hInv2, htemp2, hmono2, hall2, new2, horder2⟩ := hfold
          simp only at htemp2 hmono2 horder2
          have hn_temp2 : n ∈ s2.temp := by rw [htemp2]; exact List.mem_cons_self n s.temp
          have hn_vis2 : n ∉ s2.visited := hInv2.temp_visited_disj n hn_temp2
          have hn_ord2 : n ∉ s2.order := fun h =>
            hn_vis2 ((hInv2.visited_iff_order n).mpr h)
          have hsu2 : ∀ b ∈ g.succs n, b ∈ s2.order := fun b hb =>
            (hInv2.visited_iff_order b).mp (hall2 b hb)
          have herase : s2.temp.erase n = s.temp := by
            rw [htemp2, List.erase_cons_head]
          refine ⟨?_, ?_, ?_, ?_, ⟨new2 ++ [n], ?_⟩⟩
          · exact
            { temp_nodup := herase ▸ hInv.temp_nodup
              temp_sub := herase ▸ hInv.temp_sub
              temp_chain := herase ▸ hInv.temp_chain
              visited_sub := by
                intro x hx
                rcases List.mem_cons.mp hx with h | h
                · subst h; exact hn
                · exact hInv2.visited_sub x h
              visited_iff_order := by
                intro x
                simp only [List.mem_cons, List.mem_append, List.mem_singleton]
                rw [hInv2.visited_iff_order x]
                tauto
              order_nodup := by
                rw [List.nodup_append]
                refine ⟨hInv2.order_nodup, List.nodup_singleton n, ?_⟩
                intro a ha hb
                rw [List.mem_singleton] at hb
                subst hb
                exact hn_ord2 ha
              temp_visited_disj := by
                intro x hx
                rw [herase] at hx
                intro hmem
                rcases List.mem_cons.mp hmem with h | h
                · subst h; exact h1 hx
                · exact hInv2.temp_visited_disj x
                    (by rw [htemp2]; exact List.mem_cons_of_mem n hx) h
              ordered := postOrdered_append hInv2.ordered hn_ord2 hsu2 }
          · exact herase
          · intro x hx
            exact List.mem_cons_of_mem n (hmono2 x hx)
          · exact List.mem_cons_self n s2.visited
          · rw [horder2, List.append_assoc]

/-- Specification of the outer loop of `topological_order`. -/
theorem visitAll_spec {g : WorkflowDAG} (hg : g.WF) :
    ∀ (ns : List String) (s : DfsState), DfsInv g s →
      (∀ m ∈ ns, m ∈ g.nodeNames) → s.temp = [] →
      AllConc g s ns (visitAll g ns s) := by
  intro ns
  induction ns with
  | nil =>
    intro s hInv _ htemp
    exact ⟨hInv, htemp, fun x hx => hx, by simp⟩
  | cons n ns ih =>
    intro s hInv hmem htemp
    rw [visitAll]
    by_cases h1 : n ∈ s.visited
    · rw [if_pos h1]
      have hrec := ih s hInv (fun m hm => hmem m (List.mem_cons_of_mem n hm)) htemp
      cases hfl : visitAll g ns s with
      | error e => rw [hfl] at hrec; exact hrec
      | ok s2 =>
        rw [hfl] at hrec
        obtain ⟨hInv2, htemp2, hmono2, hall2⟩ := hrec
        exact ⟨hInv2, htemp2, hmono2, fun m hm => by
          rcases List.mem_cons.mp hm with h | h
          · subst h; exact hmono2 m h1
          · exact hall2 m h⟩
    · rw [if_neg h1]
      have hstep := visitF_spec hg g.fuel n s hInv (hmem n (List.mem_cons_self n ns))
        (Or.inl htemp)
        (by
          rw [htemp]
          unfold WorkflowDAG.fuel WorkflowDAG.nodeNames
          simp)
      show AllConc g s (n :: ns) (match visitF g g.fuel n s with
        | .error e => .error e
        | .ok s1 => visitAll g ns s1)
      cases hfm : visitF g g.fuel n s with
      | error e =>
        rw [hfm] at hstep
        exact hstep
      | ok s1 =>
        rw [hfm] at hstep
        obtain ⟨hInv1, htemp1, hmono1, hn1, new1, horder1⟩ := hstep
        have hrec := ih s1 hInv1 (fun m hm => hmem m (List.mem_cons_of_mem n hm))
          (htemp1.trans htemp)
        show AllConc g s (n :: ns) (visitAll g ns s1)
        cases hfl : visitAll g ns s1 with
        | error e => rw [hfl] at hrec; exact hrec
        | ok s2 =>
          rw [hfl] at hrec
          obtain ⟨hInv2, htemp2, hmono2, hall2⟩ := hrec
          exact ⟨hInv2, htemp2, fun x hx => hmono2 x (hmono1 x hx), fun m hm => by
            rcases List.mem_cons.mp hm with h | h
            · subst h; exact hmono2 m hn1
            · exact hall2 m h⟩

/-- On success, `topoNames` lists exactly the node names, without
duplicates, and its reverse is a `PostOrdered` post-order. -/
theorem topoNames_ok {g : WorkflowDAG} (hg : g.WF) {L : List String}
    (h : g.topoNames = .ok L) :
    (∀ x, x ∈ L ↔ x ∈ g.nodeNames) ∧ L.Nodup ∧ PostOrdered g L.reverse := by
  have hspec := visitAll_spec hg g.nodeNames ⟨[], [], []⟩
    { temp_nodup := List.nodup_nil
      temp_sub := by simp
      temp_chain := List.chain'_nil
      visited_sub := by simp
      visited_iff_order := by simp
      order_nodup := List.nodup_nil
      temp_visited_disj := by simp
      ordered := postOrdered_nil g }
    (fun m hm => hm) rfl
  unfold WorkflowDAG.topoNames at h
  cases hfl : visitAll g g.nodeNames ⟨[], [], []⟩ with
  | error e => rw [hfl] at h; cases h
  | ok s2 =>
    rw [hfl] at h hspec
    cases h
    obtain ⟨hInv2, _, _, hall2⟩ := hspec
    refine ⟨?_, ?_, ?_⟩
    · intro x
      rw [List.mem_reverse]
      constructor
      · intro hx
        exact hInv2.visited_sub x ((hInv2.visited_iff_order x).mpr hx)
      · intro hx
        exact (hInv2.visited_iff_order x).mp (hall2 x hx)
    · exact List.nodup_reverse.mpr hInv2.order_nodup
    · rw [List.reverse_reverse]
      exact hInv2.ordered

/-- On failure, `visitAll` starting from the empty state raises exactly the
cycle error, and the graph has a real cycle. -/
theorem topoNames_error {g : WorkflowDAG} (hg : g.WF) {e : WfError}
    (h : g.topoNames = .error e) : e = .cycleDetected ∧ g.hasCycle := by
  have hspec := visitAll_spec hg g.nodeNames ⟨[], [], []⟩
    { temp_nodup := List.nodup_nil
      temp_sub := by simp
      temp_chain := List.chain'_nil
      visited_sub := by simp
      visited_iff_order := by simp
      order_nodup := List.nodup_nil
      temp_visited_disj := by simp
      ordered := postOrdered_nil g }
    (fun m hm => hm) rfl
  unfold WorkflowDAG.topoNames at h
  cases hfl : visitAll g g.nodeNames ⟨[], [], []⟩ with
  | error e2 =>
    rw [hfl] at h hspec
    cases h
    exact hspec
  | ok s2 => rw [hfl] at h; cases h

theorem indexOf_lt_of_precedes {l : List String} (hnd : l.Nodup) {x y : String}
    (h : Precedes x y l) : l.indexOf x < l.indexOf y := by
  obtain ⟨l1, l2, l3, rfl⟩ := h
  induction l1 with
  | nil =>
    simp only [List.nil_append, List.cons_append] at hnd ⊢
    rw [List.nodup_cons] at hnd
    have hxy : x ≠ y := by
      intro hx
      exact hnd.1 (hx ▸ (by simp : y ∈ l2 ++ y :: l3))
    rw [List.indexOf_cons_self, List.indexOf_cons_ne _ hxy]
    omega
  | cons c l1 ih =>
    simp only [List.cons_append] at hnd ⊢
    rw [List.nodup_cons] at hnd
    have hxc : c ≠ x := by
      intro hx
      exact hnd.1 (hx ▸ (by simp : x ∈ l1 ++ x :: l2 ++ y :: l3))
    have hyc : c ≠ y := by
      intro hy
      exact hnd.1 (hy ▸ (by simp : y ∈ l1 ++ x :: l2 ++ y :: l3))
    rw [List.indexOf_cons_ne _ hxc, List.indexOf_cons_ne _ hyc]
    have := ih hnd.2
    omega

/-- On success, every edge's source strictly precedes its target in the
returned order. -/
theorem topoNames_sorted {g : WorkflowDAG} (hg : g.WF) {L : List String}
    (h : g.topoNames = .ok L) {a b : String} (hadj : g.adj a b) :
    Precedes a b L := by
  obtain ⟨hmem, hnd, hord⟩ := topoNames_ok hg h
  obtain ⟨hpair, _, hirr⟩ := hord
  have haL : a ∈ L.reverse := by
    rw [List.mem_reverse]
    exact (hmem a).mpr (adj_source_mem hg hadj)
  have hbL : b ∈ L.reverse := by
    rw [List.mem_reverse]
    exact (hmem b).mpr (adj_target_mem hg hadj)
  have hne : a ≠ b := by
    intro hab
    exact hirr a haL (hab ▸ hadj)
  rcases precedes_total haL hbL hne with hp | hp
  · exact absurd hadj (pairwise_of_precedes hpair hp)
  · have := precedes_reverse hp
    rwa [List.reverse_reverse] at this

theorem transGen_indexOf {g : WorkflowDAG} (hg : g.WF) {L : List String}
    (h : g.topoNames = .ok L) :
    ∀ {a b : String}, Relation.TransGen g.adj a b →
      L.indexOf a < L.indexOf b := by
  intro a b htg
  have hnd := (topoNames_ok hg h).2.1
  induction htg with
  | single hadj => exact indexOf_lt_of_precedes hnd (topoNames_sorted hg h hadj)
  | tail _ hadj ih =>
    exact ih.trans (indexOf_lt_of_precedes hnd (topoNames_sorted hg h hadj))

theorem no_cycle_of_topoNames_ok {g : WorkflowDAG} (hg : g.WF) {L : List String}
    (h : g.topoNames = .ok L) : ¬ g.hasCycle := by
  rintro ⟨n, htg⟩
  exact lt_irrefl _ (transGen_indexOf hg h htg)

theorem topoNames_error_of_hasCycle {g : WorkflowDAG} (hg : g.WF)
    (hc : g.hasCycle) : g.topoNames = .error .cycleDetected := by
  cases h : g.topoNames with
  | error e => rw [(topoNames_error hg h).1]
  | ok L => exact absurd hc (no_cycle_of_topoNames_ok hg h)

theorem topoNames_ok_of_acyclic {g : WorkflowDAG} (hg : g.WF)
    (hnc : ¬ g.hasCycle) : ∃ L, g.topoNames = .ok L := by
  cases h : g.topoNames with
  | error e => exact absurd (topoNames_error hg h).2 hnc
  | ok L => exact ⟨L, rfl⟩

theorem filterMap_lookup_names {g : WorkflowDAG}
    (hkeys : ∀ p ∈ g.nodes, p.1 = p.2.name) :
    ∀ (L : List String), (∀ x ∈ L, x ∈ g.nodeNames) →
      (L.filterMap (fun nm => List.lookup nm g.nodes)).map WorkflowNode.name = L := by
  intro L
  induction L with
  | nil => simp
  | cons x xs ih =>
    intro hmem
    obtain ⟨v, hv⟩ := keys_mem_lookup g.nodes x (hmem x (List.mem_cons_self x xs))
    have hname : v.name = x :=
      (hkeys (x, v) (lookup_eq_some_mem _ _ _ hv)).symm
    rw [List.filterMap_cons, hv, List.map_cons, hname,
      ih (fun y hy => hmem y (List.mem_cons_of_mem x hy))]

/-- `topological_order` and `topoNames` fail together, with the same
error. -/
theorem topological_order_error_iff {g : WorkflowDAG} {e : WfError} :
    g.topological_order = .error e ↔ g.topoNames = .error e := by
  unfold WorkflowDAG.topological_order
  cases h : g.topoNames with
  | error e2 => simp
  | ok L => simp

/-- On success, the names of the nodes returned by `topological_order` are
exactly the name sequence computed by the DFS. -/
theorem topological_order_names {g : WorkflowDAG} (hg : g.WF) {L : List String}
    (h : g.topoNames = .ok L) :
    ∃ ns, g.topological_order = .ok ns ∧ ns.map WorkflowNode.name = L := by
  refine ⟨L.filterMap (fun nm => List.lookup nm g.nodes), ?_, ?_⟩
  · unfold WorkflowDAG.topological_order
    rw [h]
  · exact filterMap_lookup_names hg.2.1 L
      (fun x hx => ((topoNames_ok hg h).1 x).mp hx)

theorem gChain_adj {x y : String} : gChain.adj x y ↔ x = "a" ∧ y = "b" := by
  unfold WorkflowDAG.adj WorkflowDAG.succs gChain
  by_cases hx : x = "a"
  · subst hx
    simp [List.lookup]
  · by_cases hx2 : x = "b"
    · subst hx2
      simp [List.lookup]
    · have h1 : (x == "a") = false := by simpa using hx
      have h2 : (x == "b") = false := by simpa using hx2
      simp [List.lookup, h1, h2, hx]

theorem gChain_transGen {x y : String}
    (h : Relation.TransGen gChain.adj x y) : x = "a" ∧ y = "b" := by
  induction h with
  | single h1 => exact gChain_adj.mp h1
  | tail _ h2 ih =>
    have hmid := gChain_adj.mp h2
    have : ("a" : String) = "b" := hmid.1 ▸ ih.2
    exact absurd this (by decide)

theorem gChain_acyclic : ¬ gChain.hasCycle := by
  rintro ⟨n, h⟩
  have hn := gChain_transGen h
  have : ("a" : String) = "b" := hn.1 ▸ hn.2
  exact absurd this (by decide)

theorem gLoop_hasCycle : gLoop.hasCycle := by
  have h1 : gLoop.adj "a" "b" := by
    show ("b" : String) ∈ gLoop.succs "a"
    decide
  have h2 : gLoop.adj "b" "a" := by
    show ("a" : String) ∈ gLoop.succs "b"
    decide
  exact ⟨"a", Relation.TransGen.head h1 (Relation.TransGen.single h2)⟩

theorem gLoop_WF : gLoop.WF := by
  unfold WorkflowDAG.WF
  refine ⟨by decide, by decide, by decide, by decide⟩

theorem gChain_WF : gChain.WF := by
  unfold WorkflowDAG.WF
  refine ⟨by decide, by decide, by decide, by decide⟩

/-- C4: for every well-formed graph whose edge relation contains a directed
cycle, `topological_order()` fails with the cycle-detected error and
returns no order at all, and for every well-formed acyclic graph it
succeeds. -/
theorem topological_order_cycle_spec (g : WorkflowDAG) (hg : g.WF) :
    (g.hasCycle → g.topological_order = .error .cycleDetected) ∧
    (¬ g.hasCycle → ∃ L, g.topological_order = .ok L) := by
  constructor
  · intro hc
    exact topological_order_error_iff.mpr (topoNames_error_of_hasCycle hg hc)
  · intro hnc
    obtain ⟨L, hL⟩ := topoNames_ok_of_acyclic hg hnc
    obtain ⟨ns, hns, _⟩ := topological_order_names hg hL
    exact ⟨ns, hns⟩

/-- Witness for C4: the two-node cycle raises the cycle error, and the
two-node chain succeeds. -/
theorem topological_order_cycle_spec_witness :
    gLoop.topological_order = .error .cycleDetected ∧
      ∃ L, gChain.topological_order = .ok L :=
  ⟨(topological_order_cycle_spec gLoop gLoop_WF).1 gLoop_hasCycle,
   (topological_order_cycle_spec gChain gChain_WF).2 gChain_acyclic⟩

/-- C10: on a well-formed cyclic graph, `execute` raises the cycle error
for every runner — the full topological order is computed before any step
runs — and the sequence of nodes handed to the runner is empty. -/
theorem execute_cyclic_runs_nothing (g : WorkflowDAG) (hg : g.WF)
    (hc : g.hasCycle) :
    (∀ (α : Type) (runner : WorkflowNode → α),
       g.execute runner = .error .cycleDetected) ∧
      g.executedNodes = [] := by
  have herr : g.topological_order = .error .cycleDetected :=
    topological_order_error_iff.mpr (topoNames_error_of_hasCycle hg hc)
  constructor
  · intro α runner
    unfold WorkflowDAG.execute
    rw [herr]
  · unfold WorkflowDAG.executedNodes
    rw [herr]

/-- Witness for C10: on the two-node cycle, `execute` raises and runs
nothing, whatever the runner computes. -/
theorem execute_cyclic_runs_nothing_witness :
    gLoop.execute (fun n => n.name) = .error .cycleDetected ∧
      gLoop.executedNodes = [] :=
  ⟨(execute_cyclic_runs_nothing gLoop gLoop_WF gLoop_hasCycle).1
      String (fun n => n.name),
   (execute_cyclic_runs_nothing gLoop gLoop_WF gLoop_hasCycle).2⟩

theorem exceptFold_append {alpha sigma : Type}
    (step : alpha → sigma → Except WfError sigma) (l1 l2 : List alpha) :
    ∀ st, exceptFold step (l1 ++ l2) st =
      match exceptFold step l1 st with
      | .error e => .error e
      | .ok st1 => exceptFold step l2 st1 := by
  induction l1 with
  | nil => intro st; simp [exceptFold]
  | cons x rest ih =>
    intro st
    rw [List.cons_append, exceptFold, exceptFold]
    cases step x st with
    | error e => rfl
    | ok st1 => exact ih st1

/-- Removing an element on which the step is the identity does not change a
fold. -/
theorem exceptFold_skip {alpha sigma : Type}
    (step : alpha → sigma → Except WfError sigma) {x : alpha}
    (hx : ∀ st, step x st = .ok st) (l1 l2 : List alpha) (st : sigma) :
    exceptFold step (l1 ++ x :: l2) st = exceptFold step (l1 ++ l2) st := by
  rw [exceptFold_append, exceptFold_append]
  cases exceptFold step l1 st with
  | error e => rfl
  | ok st1 =>
    show exceptFold step (x :: l2) st1 = exceptFold step l2 st1
    rw [exceptFold, hx st1]

/-- If no `action` keyword occurs, the keyword stage leaves an absent
action absent. -/
theorem foldKwargs_no_action :
    ∀ (kws : List (Option String × PExpr)) (acc : Option Lit × Option Lit × Lit),
      (∀ v, (some "action", v) ∉ kws) → acc.2.1 = Option.none →
      ∀ r, foldKwargs kws acc = .ok r → r.2.1 = Option.none := by
  intro kws
  induction kws with
  | nil =>
    intro acc _ hacc r hr
    rw [foldKwargs] at hr
    cases hr
    exact hacc
  | cons kw rest ih =>
    intro acc hno hacc r hr
    obtain ⟨nm, act, ps⟩ := acc
    obtain ⟨argName, value⟩ := kw
    simp only at hacc
    subst hacc
    rw [foldKwargs] at hr
    by_cases h1 : argName = some "name"
    · rw [if_pos h1] at hr
      cases hev : literalEvalNode value "node name" with
      | error e => rw [hev] at hr; cases hr
      | ok v =>
        rw [hev] at hr
        exact ih (some v, Option.none, ps)
          (fun v2 hv2 => hno v2 (List.mem_cons_of_mem _ hv2)) rfl r hr
    · rw [if_neg h1] at hr
      have h2 : ¬ argName = some "action" := by
        intro h
        subst h
        exact hno value (List.mem_cons_self _ _)
      rw [if_neg h2] at hr
      by_cases h3 : argName = some "params"
      · rw [if_pos h3] at hr
        cases hev : literalEvalNode value "node params" with
        | error e => rw [hev] at hr; cases hr
        | ok v =>
          rw [hev] at hr
          exact ih (nm, Option.none, v)
            (fun v2 hv2 => hno v2 (List.mem_cons_of_mem _ hv2)) rfl r hr
      · rw [if_neg h3] at hr
        exact ih (nm, Option.none, ps)
          (fun v2 hv2 => hno v2 (List.mem_cons_of_mem _ hv2)) rfl r hr

/-- If no `name` keyword occurs, the keyword stage leaves an absent name
absent. -/
theorem foldKwargs_no_name :
    ∀ (kws : List (Option String × PExpr)) (acc : Option Lit × Option Lit × Lit),
      (∀ v, (some "name", v) ∉ kws) → acc.1 = Option.none →
      ∀ r, foldKwargs kws acc = .ok r → r.1 = Option.none := by
  intro kws
  induction kws with
  | nil =>
    intro acc _ hacc r hr
    rw [foldKwargs] at hr
    cases hr
    exact hacc
  | cons kw rest ih =>
    intro acc hno hacc r hr
    obtain ⟨nm, act, ps⟩ := acc
    obtain ⟨argName, value⟩ := kw
    simp only at hacc
    subst hacc
    rw [foldKwargs] at hr
    have h1 : ¬ argName = some "name" := by
      intro h
      subst h
      exact hno value (List.mem_cons_self _ _)
    rw [if_neg h1] at hr
    by_cases h2 : argName = some "action"
    · rw [if_pos h2] at hr
      cases hev : literalEvalNode value "node action" with
      | error e => rw [hev] at hr; cases hr
      | ok v =>
        rw [hev] at hr
        exact ih (Option.none, some v, ps)
          (fun v2 hv2 => hno v2 (List.mem_cons_of_mem _ hv2)) rfl r hr
    · rw [if_neg h2] at hr
      by_cases h3 : argName = some "params"
      · rw [if_pos h3] at hr
        cases hev : literalEvalNode value "node params" with
        | error e => rw [hev] at hr; cases hr
        | ok v =>
          rw [hev] at hr
          exact ih (Option.none, act, v)
            (fun v2 hv2 => hno v2 (List.mem_cons_of_mem _ hv2)) rfl r hr
      · rw [if_neg h3] at hr
        exact ih (Option.none, act, ps)
          (fun v2 hv2 => hno v2 (List.mem_cons_of_mem _ hv2)) rfl r hr

theorem finalizeNode_nameless (act : Option Lit) (ps : Lit) :
    ∀ n, finalizeNode Option.none (Option.none, act, ps) ≠ .ok n := by
  intro n h
  cases act <;> cases h

theorem finalizeNode_default_name {t : String} {act : Option Lit} {ps : Lit}
    {n : WorkflowNode} (h : finalizeNode (some t) (Option.none, act, ps) = .ok n) :
    n.name = t := by
  cases act <;> cases ps <;> cases h <;> rfl

theorem finalizeNode_action_default {d : Option String} {nm : Option Lit}
    {ps : Lit} {n : WorkflowNode}
    (h : finalizeNode d (nm, Option.none, ps) = .ok n) :
    n.action = n.name := by
  cases nm <;> cases d <;> cases ps <;> cases h <;> rfl

theorem evalPositional_short (args : List PExpr) (hlen : args.length ≤ 1)
    (acc : Option Lit × Option Lit × Lit) (h : evalPositional args = .ok acc) :
    acc.2.1 = Option.none := by
  match args, hlen with
  | [], _ =>
    cases h
    rfl
  | [a0], _ =>
    rw [show evalPositional [a0] =
      (match literalEvalNode a0 "node name" with
       | .error e => .error e
       | .ok v0 => .ok (some v0, Option.none, Lit.dict [])) from rfl] at h
    cases hv : literalEvalNode a0 "node name" with
    | error e => rw [hv] at h; cases h
    | ok v0 =>
      rw [hv] at h
      cases h
      rfl

/-- A node construction with no positional arguments, no `name` keyword and
no defaultable name never succeeds. -/
theorem parseNodeCall_nameless (f : PExpr) (args : List PExpr)
    (kws : List (Option String × PExpr)) (hargs : args = [])
    (hno : ∀ v, (some "name", v) ∉ kws) :
    ∀ n, parseWorkflowNodeCall f args kws Option.none ≠ .ok n := by
  intro n hok
  unfold parseWorkflowNodeCall at hok
  split at hok
  · subst hargs
    split at hok
    case h_1 e heq =>
      rw [show evalPositional [] =
        .ok ((Option.none : Option Lit), (Option.none : Option Lit), Lit.dict [])
        from rfl] at heq
      cases heq
    case h_2 acc0 heq =>
      rw [show evalPositional [] =
        .ok ((Option.none : Option Lit), (Option.none : Option Lit), Lit.dict [])
        from rfl] at heq
      cases heq
      split at hok
      · cases hok
      case h_2 acc1 heq2 =>
        obtain ⟨nm1, act1, ps1⟩ := acc1
        have hnm : nm1 = Option.none := foldKwargs_no_name kws _ hno rfl _ heq2
        subst hnm
        exact finalizeNode_nameless act1 ps1 n hok
  · cases hok

/-- On success, the node name came from a positional argument, a `name`
keyword, or the supplied default. -/
theorem parseNodeCall_name_origin (f : PExpr) (args : List PExpr)
    (kws : List (Option String × PExpr)) (d : Option String)
    (n : WorkflowNode) (hok : parseWorkflowNodeCall f args kws d = .ok n) :
    args ≠ [] ∨ (∃ v, (some "name", v) ∈ kws) ∨ d ≠ Option.none := by
  by_contra hcon
  push_neg at hcon
  obtain ⟨hargs, hno, hd⟩ := hcon
  subst hd
  exact parseNodeCall_nameless f args kws hargs hno n hok

/-- When neither the second positional argument nor an `action` keyword is
supplied, a successfully parsed node's action equals its name. -/
theorem parseNodeCall_action_defaults (f : PExpr) (args : List PExpr)
    (kws : List (Option String × PExpr)) (d : Option String)
    (n : WorkflowNode) (hlen : args.length ≤ 1)
    (hno : ∀ v, (some "action", v) ∉ kws)
    (hok : parseWorkflowNodeCall f args kws d = .ok n) :
    n.action = n.name := by
  unfold parseWorkflowNodeCall at hok
  split at hok
  · split at hok
    · cases hok
    case h_2 acc0 heq =>
      have hnone := evalPositional_short args hlen acc0 heq
      obtain ⟨nm0, act0, ps0⟩ := acc0
      simp only at hnone
      subst hnone
      split at hok
      · cases hok
      case h_2 acc1 heq2 =>
        obtain ⟨nm1, act1, ps1⟩ := acc1
        have hact : act1 = Option.none := foldKwargs_no_action kws _ hno rfl _ heq2
        subst hact
        exact finalizeNode_action_default hok
  · cases hok

/-- When the name is omitted, a successfully parsed node takes the supplied
default (the assignment target) as its name. -/
theorem parseNodeCall_default_name (f : PExpr) (args : List PExpr)
    (kws : List (Option String × PExpr)) (t : String) (n : WorkflowNode)
    (hargs : args = []) (hno : ∀ v, (some "name", v) ∉ kws)
    (hok : parseWorkflowNodeCall f args kws (some t) = .ok n) :
    n.name = t := by
  unfold parseWorkflowNodeCall at hok
  split at hok
  · subst hargs
    split at hok
    case h_1 e heq =>
      rw [show evalPositional [] =
        .ok ((Option.none : Option Lit), (Option.none : Option Lit), Lit.dict [])
        from rfl] at heq
      cases heq
    case h_2 acc0 heq =>
      rw [show evalPositional [] =
        .ok ((Option.none : Option Lit), (Option.none : Option Lit), Lit.dict [])
        from rfl] at heq
      cases heq
      split at hok
      · cases hok
      case h_2 acc1 heq2 =>
        obtain ⟨nm1, act1, ps1⟩ := acc1
        have hnm : nm1 = Option.none := foldKwargs_no_name kws _ hno rfl _ heq2
        subst hnm
        exact finalizeNode_default_name hok
  · cases hok

/-- C2: on the repository's own test input
(`test_treats_unquoted_identifiers_as_strings`), where the bare identifier
`slack_channel` appears inside the `params` dict, extraction does not
coerce the identifier to the string of its spelling: `ast.literal_eval`
rejects the `Name` node, so extraction raises the "Unable to evaluate node
params from workflow code" diagnostic instead of accepting the node. -/
theorem bare_identifier_params_raises :
    parse_workflow_code srcSlack = .error (.evalFailure "node params") := rfl

/-- C3 counterexample: a source containing the unrecognized call
`dag.remove_node("a")` extracts successfully (to the empty graph) instead
of failing with a diagnostic. -/
theorem unrecognized_call_extraction_succeeds :
    parse_workflow_code srcIgnored = .ok ⟨[], []⟩ := rfl

/-- C3 (amended): a top-level statement calling any method other than
`add_node` / `add_edge` is silently ignored, not rejected: extraction of a
source containing such a statement equals extraction of the source with
the statement removed. -/
theorem unrecognized_method_call_skipped (v m : String) (args : List PExpr)
    (kws : List (Option String × PExpr)) (l1 l2 : List Stmt)
    (hm1 : m ≠ "add_node") (hm2 : m ≠ "add_edge") :
    parse_workflow_code
        (l1 ++ .exprStmt (.call (.attr (.name v) m) args kws) :: l2) =
      parse_workflow_code (l1 ++ l2) := by
  have hstep1 : ∀ acc,
      pass1Step (.exprStmt (.call (.attr (.name v) m) args kws)) acc = .ok acc :=
    fun _ => rfl
  have hb1 : ∀ dn, isDagMethodCall (.attr (.name v) m) dn "add_node" = false := by
    intro dn
    unfold isDagMethodCall
    simp [hm1]
  have hb2 : ∀ dn, isDagMethodCall (.attr (.name v) m) dn "add_edge" = false := by
    intro dn
    unfold isDagMethodCall
    simp [hm2]
  have hstep2 : ∀ dn nn st,
      pass2Step dn nn (.exprStmt (.call (.attr (.name v) m) args kws)) st = .ok st := by
    intro dn nn st
    obtain ⟨g, es⟩ := st
    show pass2Call dn nn (.attr (.name v) m) args g es = .ok (g, es)
    simp [pass2Call, hb1, hb2]
  unfold parse_workflow_code pass1
  rw [exceptFold_skip pass1Step hstep1]
  cases hp : exceptFold pass1Step (l1 ++ l2) ([], []) with
  | error e => rfl
  | ok acc =>
    obtain ⟨dn, nn⟩ := acc
    by_cases hdn : dn = []
    · subst hdn
      rfl
    · have hred : ∀ stmts, afterPass1 stmts (.ok (dn, nn)) =
          afterPass2 (pass2 dn nn stmts ⟨[], []⟩ []) := by
        intro stmts
        show (if dn = [] then Except.error WfError.noDag
          else afterPass2 (pass2 dn nn stmts ⟨[], []⟩ [])) = _
        rw [if_neg hdn]
      rw [hred, hred]
      unfold pass2
      rw [exceptFold_skip (pass2Step dn nn) (hstep2 dn nn)]

/-- C5 counterexample: extraction admits a node whose name and action are
both the empty string (the emptiness invariant does not hold). -/
theorem empty_name_node_admitted :
    parse_workflow_code srcEmptyName =
      .ok ⟨[("", ⟨"", "", []⟩)], [("", [])]⟩ := rfl

/-- C5 (amended): a node admitted through extraction never has a `None`
name or action — a construction with no positional argument, no `name`
keyword and no defaultable name is rejected — but emptiness is not
checked: `add_node` admits a node with empty name (and any action)
whenever the empty name is not already taken. -/
theorem admitted_node_fields_never_none :
    (∀ (f : PExpr) (args : List PExpr) (kws : List (Option String × PExpr))
        (d : Option String) (n : WorkflowNode),
        parseWorkflowNodeCall f args kws d = .ok n →
        args ≠ [] ∨ (∃ v, (some "name", v) ∈ kws) ∨ d ≠ Option.none) ∧
    ∀ (g : WorkflowDAG) (act : String) (ps : List (Lit × Lit)),
      "" ∉ g.nodeNames →
      (g.add_node ⟨"", act, ps⟩).2 = Option.none ∧
        ("", (⟨"", act, ps⟩ : WorkflowNode)) ∈ (g.add_node ⟨"", act, ps⟩).1.nodes := by
  constructor
  · exact fun f args kws d n h => parseNodeCall_name_origin f args kws d n h
  · intro g act ps hmem
    unfold WorkflowDAG.add_node
    rw [if_neg hmem]
    exact ⟨rfl, List.mem_append_right _ (List.mem_singleton.mpr rfl)⟩

/-- Witness for the amended C5: a nameless construction is rejected (here
via the name-origin disjunction at a construction with a positional name),
and `add_node` admits the empty-named node into the empty graph. -/
theorem admitted_node_fields_never_none_witness :
    ([PExpr.constStr ""] ≠ ([] : List PExpr) ∨
      (∃ v, (some "name", v) ∈ ([] : List (Option String × PExpr))) ∨
      (Option.none : Option String) ≠ Option.none) ∧
    ((WorkflowDAG.mk [] []).add_node ⟨"", "act", []⟩).2 = Option.none :=
  ⟨admitted_node_fields_never_none.1 (.name "WorkflowNode") [.constStr ""] []
      Option.none ⟨"", "", []⟩ rfl,
   (admitted_node_fields_never_none.2 ⟨[], []⟩ "act" [] (by decide)).1⟩

/-- C7: in every recognized node construction, an omitted action defaults
to the node's name; an omitted name is legal in a top-level alias
assignment, where the assignment target supplies it (pass one binds the
alias to a node named after the target); and a construction with neither
an explicit nor a defaultable name never succeeds. -/
theorem node_defaulting_rules :
    (∀ (f : PExpr) (args : List PExpr) (kws : List (Option String × PExpr))
        (d : Option String) (n : WorkflowNode), args.length ≤ 1 →
        (∀ v, (some "action", v) ∉ kws) →
        parseWorkflowNodeCall f args kws d = .ok n → n.action = n.name) ∧
    (∀ (args : List PExpr) (kws : List (Option String × PExpr)) (t : String)
        (n : WorkflowNode) (dn : List String)
        (nn : List (String × WorkflowNode)), args = [] →
        (∀ v, (some "name", v) ∉ kws) →
        parseWorkflowNodeCall (.name "WorkflowNode") args kws (some t) = .ok n →
        pass1Step (.assign [t] (.call (.name "WorkflowNode") args kws)) (dn, nn) =
            .ok (dn, updateAssoc t n nn) ∧ n.name = t) ∧
    ∀ (f : PExpr) (args : List PExpr) (kws : List (Option String × PExpr))
        (n : WorkflowNode), args = [] → (∀ v, (some "name", v) ∉ kws) →
        parseWorkflowNodeCall f args kws Option.none ≠ .ok n := by
  refine ⟨?_, ?_, ?_⟩
  · exact fun f args kws d n hlen hno hok =>
      parseNodeCall_action_defaults f args kws d n hlen hno hok
  · intro args kws t n dn nn hargs hno hok
    constructor
    · have h1 : pass1Step (.assign [t] (.call (.name "WorkflowNode") args kws))
          (dn, nn) =
          (match bindNamedNodes (.name "WorkflowNode") args kws [t] nn with
           | .error e => .error e
           | .ok nn1 => .ok (dn, nn1)) := rfl
      rw [h1]
      unfold bindNamedNodes exceptFold bindNamedNode
      rw [hok]
      rfl
    · exact parseNodeCall_default_name _ args kws t n hargs hno hok
  · exact fun f args kws n hargs hno =>
      parseNodeCall_nameless f args kws hargs hno n

/-- Witness for C7: the repository-test shapes — `WorkflowNode("greet")`
defaults its action to `greet`; `intro = WorkflowNode()` binds the alias to
a node named `intro`; and an inline nameless `WorkflowNode()` fails. -/
theorem node_defaulting_rules_witness :
    (⟨"greet", "greet", []⟩ : WorkflowNode).action = WorkflowNode.name ⟨"greet", "greet", []⟩ ∧
    (pass1Step (.assign ["intro"] (.call (.name "WorkflowNode") [] []))
        ([], []) = .ok ([], updateAssoc "intro" ⟨"intro", "intro", []⟩ []) ∧
      (⟨"intro", "intro", []⟩ : WorkflowNode).name = "intro") ∧
    parseWorkflowNodeCall (.name "WorkflowNode") [] [] Option.none ≠
      .ok ⟨"x", "x", []⟩ :=
  ⟨node_defaulting_rules.1 (.name "WorkflowNode") [.constStr "greet"] []
      Option.none ⟨"greet", "greet", []⟩ (by simp) (by simp) rfl,
   node_defaulting_rules.2.1 [] [] "intro" ⟨"intro", "intro", []⟩ [] []
      rfl (by simp) rfl,
   node_defaulting_rules.2.2 (.name "WorkflowNode") [] [] ⟨"x", "x", []⟩
      rfl (by simp)⟩

/-- Witness for the amended C3: removing the `dag.remove_node("a")`
statement does not change the extraction result. -/
theorem unrecognized_method_call_skipped_witness :
    parse_workflow_code
        ([Stmt.assign ["dag"] (.call (.name "WorkflowDAG") [] [])] ++
          .exprStmt (.call (.attr (.name "dag") "remove_node")
            [.constStr "a"] []) :: []) =
      parse_workflow_code
        ([Stmt.assign ["dag"] (.call (.name "WorkflowDAG") [] [])] ++ []) :=
  unrecognized_method_call_skipped "dag" "remove_node" [.constStr "a"] []
    [Stmt.assign ["dag"] (.call (.name "WorkflowDAG") [] [])] []
    (by decide) (by decide)

theorem exceptFold_id {alpha sigma : Type}
    (step : alpha → sigma → Except WfError sigma) :
    ∀ (l : List alpha) (st : sigma),
      (∀ x ∈ l, ∀ s2, step x s2 = .ok s2) → exceptFold step l st = .ok st := by
  intro l
  induction l with
  | nil => intro st _; rfl
  | cons x rest ih =>
    intro st hid
    rw [exceptFold, hid x (List.mem_cons_self x rest) st]
    exact ih st (fun y hy s2 => hid y (List.mem_cons_of_mem x hy) s2)

/-- Pass one of a schematic recognized source: only the builder assignment
contributes. -/
theorem pass1_mkRecognizedSource (d : String) (decls es : List (String × String)) :
    pass1 (mkRecognizedSource d decls es) ([], []) = .ok ([d], []) := by
  unfold mkRecognizedSource pass1
  rw [exceptFold]
  rw [show pass1Step (.assign [d] (.call (.name "WorkflowDAG") [] [])) ([], []) =
    .ok ([d], []) from rfl]
  refine exceptFold_id pass1Step _ _ ?_
  intro x hx s2
  rcases List.mem_append.mp hx with h | h
  · obtain ⟨p, _, rfl⟩ := List.mem_map.mp h
    rfl
  · obtain ⟨p, _, rfl⟩ := List.mem_map.mp h
    rfl

theorem pass2Step_dagAssign (dn : List String) (nn : List (String × WorkflowNode))
    (d : String) (st : WorkflowDAG × List (String × String)) :
    pass2Step dn nn (.assign [d] (.call (.name "WorkflowDAG") [] [])) st = .ok st := by
  obtain ⟨g, es⟩ := st
  rfl

theorem pass2Step_nodeStmt (dn : List String) (nn : List (String × WorkflowNode))
    {d : String} (hd : d ∈ dn) (nm act : String) (g : WorkflowDAG)
    (es : List (String × String)) :
    pass2Step dn nn (nodeStmt d (nm, act)) (g, es) =
      addNodeResult g ⟨nm, act, []⟩ es := by
  have hb : isDagMethodCall (.attr (.name d) "add_node") dn "add_node" = true := by
    unfold isDagMethodCall
    simp [hd]
  show pass2Call dn nn (.attr (.name d) "add_node")
    [.call (.name "WorkflowNode") [.constStr nm, .constStr act] []] g es =
    addNodeResult g ⟨nm, act, []⟩ es
  unfold pass2Call
  rw [hb]
  rfl

theorem pass2Step_edgeStmt (dn : List String) (nn : List (String × WorkflowNode))
    {d : String} (hd : d ∈ dn) (s t : String) (g : WorkflowDAG)
    (es : List (String × String)) :
    pass2Step dn nn (edgeStmt d (s, t)) (g, es) = .ok (g, es ++ [(s, t)]) := by
  have hb1 : isDagMethodCall (.attr (.name d) "add_edge") dn "add_node" = false := by
    unfold isDagMethodCall
    simp
  have hb2 : isDagMethodCall (.attr (.name d) "add_edge") dn "add_edge" = true := by
    unfold isDagMethodCall
    simp [hd]
  show pass2Call dn nn (.attr (.name d) "add_edge")
    [.constStr s, .constStr t] g es = .ok (g, es ++ [(s, t)])
  unfold pass2Call
  rw [hb1, hb2]
  rfl

/-- The `add_node` walk over the declaration statements is `addDecls`. -/
theorem pass2_nodeStmts (dn : List String) (nn : List (String × WorkflowNode))
    {d : String} (hd : d ∈ dn) :
    ∀ (decls : List (String × String)) (g : WorkflowDAG)
      (es : List (String × String)),
      exceptFold (pass2Step dn nn) (decls.map (nodeStmt d)) (g, es) =
        match addDecls decls g with
        | .error e => .error e
        | .ok g1 => .ok (g1, es) := by
  intro decls
  induction decls with
  | nil => intro g es; rfl
  | cons p rest ih =>
    intro g es
    obtain ⟨nm, act⟩ := p
    rw [List.map_cons, exceptFold, pass2Step_nodeStmt dn nn hd, addDecls]
    unfold addNodeResult
    cases g.add_node ⟨nm, act, []⟩ with
    | mk g1 err =>
      cases err with
      | none => exact ih g1 es
      | some e => rfl

/-- The walk over the edge statements only collects the pairs. -/
theorem pass2_edgeStmts (dn : List String) (nn : List (String × WorkflowNode))
    {d : String} (hd : d ∈ dn) :
    ∀ (eds : List (String × String)) (g : WorkflowDAG)
      (es : List (String × String)),
      exceptFold (pass2Step dn nn) (eds.map (edgeStmt d)) (g, es) =
        .ok (g, es ++ eds) := by
  intro eds
  induction eds with
  | nil => intro g es; simp [exceptFold]
  | cons p rest ih =>
    intro g es
    obtain ⟨s, t⟩ := p
    rw [List.map_cons, exceptFold, pass2Step_edgeStmt dn nn hd]
    show exceptFold (pass2Step dn nn) (List.map (edgeStmt d) rest)
      (g, es ++ [(s, t)]) = .ok (g, es ++ (s, t) :: rest)
    rw [ih g (es ++ [(s, t)])]
    simp

theorem addDecls_ok :
    ∀ (decls : List (String × String)) (g : WorkflowDAG),
      (decls.map Prod.fst).Nodup →
      (∀ x ∈ decls.map Prod.fst, x ∉ g.nodeNames) →
      addDecls decls g =
        .ok ⟨g.nodes ++ decls.map (fun p => (p.1, ⟨p.1, p.2, []⟩)),
             g.edges ++ decls.map (fun p => (p.1, []))⟩ := by
  intro decls
  induction decls with
  | nil =>
    intro g _ _
    simp [addDecls]
  | cons p rest ih =>
    intro g hnd hdisj
    obtain ⟨nm, act⟩ := p
    rw [List.map_cons] at hnd hdisj
    rw [addDecls]
    have hmem : nm ∉ g.nodeNames := hdisj nm (List.mem_cons_self _ _)
    rw [show g.add_node ⟨nm, act, []⟩ =
      (⟨g.nodes ++ [(nm, ⟨nm, act, []⟩)], g.edges ++ [(nm, [])]⟩, Option.none) by
      unfold WorkflowDAG.add_node
      rw [if_neg hmem]]
    have hnames : (WorkflowDAG.mk (g.nodes ++ [(nm, ⟨nm, act, []⟩)])
        (g.edges ++ [(nm, [])])).nodeNames = g.nodeNames ++ [nm] := by
      unfold WorkflowDAG.nodeNames
      simp
    show addDecls rest ⟨g.nodes ++ [(nm, ⟨nm, act, []⟩)], g.edges ++ [(nm, [])]⟩ = _
    rw [ih _ (List.nodup_cons.mp hnd).2 (by
      intro x hx
      rw [hnames, List.mem_append, List.mem_singleton]
      rintro (h | h)
      · exact hdisj x (List.mem_cons_of_mem _ hx) h
      · exact (List.nodup_cons.mp hnd).1 (h ▸ hx))]
    simp

theorem addDecls_dup :
    ∀ (decls : List (String × String)) (g : WorkflowDAG),
      ((∃ x ∈ decls.map Prod.fst, x ∈ g.nodeNames) ∨
        ¬ (decls.map Prod.fst).Nodup) →
      ∃ nm, addDecls decls g = .error (.duplicateNode nm) := by
  intro decls
  induction decls with
  | nil =>
    intro g h
    rcases h with ⟨x, hx, _⟩ | h
    · simp at hx
    · simp at h
  | cons p rest ih =>
    intro g h
    obtain ⟨nm, act⟩ := p
    rw [addDecls]
    by_cases hmem : nm ∈ g.nodeNames
    · refine ⟨nm, ?_⟩
      rw [show g.add_node ⟨nm, act, []⟩ = (g, some (.duplicateNode nm)) by
        unfold WorkflowDAG.add_node
        rw [if_pos hmem]]
    · rw [show g.add_node ⟨nm, act, []⟩ =
        (⟨g.nodes ++ [(nm, ⟨nm, act, []⟩)], g.edges ++ [(nm, [])]⟩, Option.none) by
        unfold WorkflowDAG.add_node
        rw [if_neg hmem]]
      have hnames : (WorkflowDAG.mk (g.nodes ++ [(nm, ⟨nm, act, []⟩)])
          (g.edges ++ [(nm, [])])).nodeNames = g.nodeNames ++ [nm] := by
        unfold WorkflowDAG.nodeNames
        simp
      refine ih _ ?_
      rcases h with ⟨x, hx, hxg⟩ | h
      · rw [List.map_cons, List.mem_cons] at hx
        rcases hx with hx | hx
        · rw [hx] at hxg
          exact absurd hxg hmem
        · exact Or.inl ⟨x, hx, by
            rw [hnames, List.mem_append]
            exact Or.inl hxg⟩
      · rw [List.map_cons, List.nodup_cons] at h
        push_neg at h
        by_cases hin : nm ∈ rest.map Prod.fst
        · exact Or.inl ⟨nm, hin, by
            rw [hnames, List.mem_append, List.mem_singleton]
            exact Or.inr rfl⟩
        · exact Or.inr (h hin)

theorem insertSorted_mem (t : String) :
    ∀ (l : List String) (x : String), x ∈ insertSorted t l ↔ x = t ∨ x ∈ l := by
  intro l
  induction l with
  | nil => intro x; simp [insertSorted]
  | cons y ys ih =>
    intro x
    rw [insertSorted]
    by_cases h1 : t < y
    · rw [if_pos h1]
      simp
    · rw [if_neg h1]
      by_cases h2 : t = y
      · rw [if_pos h2]
        subst h2
        simp only [List.mem_cons]
        tauto
      · rw [if_neg h2]
        simp only [List.mem_cons, ih x]
        tauto

theorem updateEdges_keys (s t : String) :
    ∀ (l : List (String × List String)),
      (updateEdges s t l).map Prod.fst = l.map Prod.fst := by
  intro l
  induction l with
  | nil => rfl
  | cons p rest ih =>
    obtain ⟨k, ss⟩ := p
    rw [updateEdges]
    by_cases h : k = s
    · rw [if_pos h]
      simp
    · rw [if_neg h]
      simp [ih]

theorem updateEdges_lookup (s t : String) :
    ∀ (l : List (String × List String)) (a : String),
      List.lookup a (updateEdges s t l) =
        if a = s then (List.lookup a l).map (insertSorted t)
        else List.lookup a l := by
  intro l
  induction l with
  | nil =>
    intro a
    by_cases h : a = s <;> simp [updateEdges, List.lookup, h]
  | cons p rest ih =>
    intro a
    obtain ⟨k, ss⟩ := p
    rw [updateEdges]
    by_cases hk : k = s
    · rw [if_pos hk]
      subst hk
      by_cases ha : a = k
      · subst ha
        simp [List.lookup]
      · have hb : (a == k) = false := by simpa using ha
        simp [List.lookup, hb, ha]
    · rw [if_neg hk]
      by_cases ha : a = k
      · subst ha
        have has : ¬ a = s := hk
        simp [List.lookup, has]
      · have hb : (a == k) = false := by simpa using ha
        simp only [List.lookup, hb]
        exact ih a

theorem mem_lookup_nodup {β : Type} :
    ∀ (l : List (String × β)), (l.map Prod.fst).Nodup →
      ∀ (k : String) (v : β), (k, v) ∈ l → List.lookup k l = some v := by
  intro l
  induction l with
  | nil => intro _ k v h; simp at h
  | cons p rest ih =>
    intro hnd k v h
    obtain ⟨k1, v1⟩ := p
    rw [List.map_cons, List.nodup_cons] at hnd
    rcases List.mem_cons.mp h with h1 | h1
    · cases h1
      simp [List.lookup]
    · have hk : k ≠ k1 := by
        intro hkk
        subst hkk
        exact hnd.1 (List.mem_map.mpr ⟨(k, v), h1, rfl⟩)
      have hb : (k == k1) = false := by simpa using hk
      rw [List.lookup, hb]
      exact ih hnd.2 k v h1

/-- Adjacency after a successful `add_edge`-style update: the new pair, or
anything already present. -/
theorem adj_update {g : WorkflowDAG} {s t : String}
    (hs : s ∈ g.edges.map Prod.fst) (a b : String) :
    WorkflowDAG.adj ⟨g.nodes, updateEdges s t g.edges⟩ a b ↔
      ((a = s ∧ b = t) ∨ g.adj a b) := by
  unfold WorkflowDAG.adj WorkflowDAG.succs
  simp only
  rw [updateEdges_lookup]
  by_cases ha : a = s
  · subst ha
    rw [if_pos rfl]
    obtain ⟨ss, hss⟩ := keys_mem_lookup g.edges a hs
    rw [hss]
    show b ∈ insertSorted t ss ↔ _
    rw [insertSorted_mem]
    tauto
  · rw [if_neg ha]
    simp [ha]

theorem applyEdges_ok :
    ∀ (eds : List (String × String)) (g : WorkflowDAG),
      g.edges.map Prod.fst = g.nodeNames →
      (∀ p ∈ eds, p.1 ∈ g.nodeNames ∧ p.2 ∈ g.nodeNames) →
      ∃ g2, applyEdges eds g = .ok g2 ∧ g2.nodes = g.nodes ∧
        g2.edges.map Prod.fst = g.edges.map Prod.fst ∧
        ∀ a b, g2.adj a b ↔ (g.adj a b ∨ (a, b) ∈ eds) := by
  intro eds
  induction eds with
  | nil =>
    intro g _ _
    exact ⟨g, rfl, rfl, rfl, by simp⟩
  | cons p rest ih =>
    intro g hkeys hmem
    obtain ⟨s, t⟩ := p
    have hst := hmem (s, t) (List.mem_cons_self _ _)
    have hadd : g.add_edge s t =
        (⟨g.nodes, updateEdges s t g.edges⟩, Option.none) := by
      unfold WorkflowDAG.add_edge
      rw [if_pos hst]
    have hs_keys : s ∈ g.edges.map Prod.fst := hkeys ▸ hst.1
    set g1 : WorkflowDAG := ⟨g.nodes, updateEdges s t g.edges⟩ with hg1
    have hg1names : g1.nodeNames = g.nodeNames := rfl
    have hg1keys : g1.edges.map Prod.fst = g.edges.map Prod.fst :=
      updateEdges_keys s t g.edges
    obtain ⟨g2, happ, hnodes, hkeys2, hadj2⟩ := ih g1
      (by rw [hg1keys, hg1names]; exact hkeys)
      (fun q hq => by rw [hg1names]; exact hmem q (List.mem_cons_of_mem _ hq))
    refine ⟨g2, ?_, hnodes, by rw [hkeys2, hg1keys], ?_⟩
    · unfold applyEdges exceptFold
      rw [show applyEdge (s, t) g = .ok g1 by
        unfold applyEdge
        rw [hadd]]
      exact happ
    · intro a b
      rw [hadj2 a b, adj_update hs_keys]
      simp only [List.mem_cons, Prod.mk.injEq]
      tauto

theorem declaredGraph_nodeNames (decls : List (String × String)) :
    (declaredGraph decls).nodeNames = decls.map Prod.fst := by
  unfold declaredGraph WorkflowDAG.nodeNames
  rw [List.map_map]
  rfl

theorem declaredGraph_keys (decls : List (String × String)) :
    (declaredGraph decls).edges.map Prod.fst = decls.map Prod.fst := by
  unfold declaredGraph
  rw [List.map_map]
  rfl

theorem declaredGraph_not_adj (decls : List (String × String)) (a b : String) :
    ¬ (declaredGraph decls).adj a b := by
  intro h
  unfold WorkflowDAG.adj WorkflowDAG.succs at h
  cases hl : List.lookup a (declaredGraph decls).edges with
  | none => rw [hl] at h; simp at h
  | some v =>
    rw [hl] at h
    have hmem := lookup_eq_some_mem _ _ _ hl
    unfold declaredGraph at hmem
    simp only at hmem
    obtain ⟨q, _, hq⟩ := List.mem_map.mp hmem
    cases hq
    simp at h

/-- The full walk of pass two over a schematic recognized source. -/
theorem pass2_mkRecognizedSource (d : String)
    (decls es : List (String × String)) :
    pass2 [d] [] (mkRecognizedSource d decls es) ⟨[], []⟩ [] =
      match addDecls decls ⟨[], []⟩ with
      | .error e => .error e
      | .ok g1 => .ok (g1, es) := by
  have hd : d ∈ [d] := List.mem_singleton.mpr rfl
  unfold mkRecognizedSource pass2
  rw [exceptFold, pass2Step_dagAssign]
  show exceptFold (pass2Step [d] [])
    (decls.map (nodeStmt d) ++ es.map (edgeStmt d)) (⟨[], []⟩, []) = _
  rw [exceptFold_append, pass2_nodeStmts [d] [] hd]
  cases haddl : addDecls decls ⟨[], []⟩ with
  | error e => rfl
  | ok g1 =>
    show exceptFold (pass2Step [d] []) (es.map (edgeStmt d)) (g1, []) = _
    rw [pass2_edgeStmts [d] [] hd]
    simp

/-- A schematic recognized source with distinct node names and edges among
those names extracts to exactly the declared graph. -/
theorem parse_mkRecognizedSource (d : String) (decls es : List (String × String))
    (hnd : (decls.map Prod.fst).Nodup)
    (hes : ∀ p ∈ es, p.1 ∈ decls.map Prod.fst ∧ p.2 ∈ decls.map Prod.fst) :
    ∃ g, parse_workflow_code (mkRecognizedSource d decls es) = .ok g ∧
      g.nodes = decls.map (fun p => (p.1, ⟨p.1, p.2, []⟩)) ∧
      g.edges.map Prod.fst = decls.map Prod.fst ∧
      ∀ a b, g.adj a b ↔ (a, b) ∈ es := by
  have haddl : addDecls decls ⟨[], []⟩ = .ok (declaredGraph decls) := by
    rw [addDecls_ok decls ⟨[], []⟩ hnd (by
      intro x _
      show x ∉ (WorkflowDAG.mk [] []).nodeNames
      simp [WorkflowDAG.nodeNames])]
    unfold declaredGraph
    simp
  have hmem2 : ∀ p ∈ es,
      p.1 ∈ (declaredGraph decls).nodeNames ∧
      p.2 ∈ (declaredGraph decls).nodeNames := by
    intro p hp
    rw [declaredGraph_nodeNames]
    exact hes p hp
  obtain ⟨g2, happ, hnodes, hkeys, hadj⟩ := applyEdges_ok es (declaredGraph decls)
    (by rw [declaredGraph_keys, declaredGraph_nodeNames]) hmem2
  refine ⟨g2, ?_, ?_, ?_, ?_⟩
  · calc parse_workflow_code (mkRecognizedSource d decls es)
        = afterPass1 (mkRecognizedSource d decls es)
            (pass1 (mkRecognizedSource d decls es) ([], [])) := rfl
      _ = afterPass1 (mkRecognizedSource d decls es) (.ok ([d], [])) := by
          rw [pass1_mkRecognizedSource]
      _ = afterPass2 (pass2 [d] [] (mkRecognizedSource d decls es) ⟨[], []⟩ []) := by
          show (if ([d] : List String) = [] then Except.error WfError.noDag
            else afterPass2 (pass2 [d] [] (mkRecognizedSource d decls es) ⟨[], []⟩ [])) = _
          rw [if_neg (by simp)]
      _ = afterPass2 (.ok (declaredGraph decls, es)) := by
          rw [pass2_mkRecognizedSource, haddl]
      _ = applyEdges es (declaredGraph decls) := rfl
      _ = .ok g2 := happ
  · rw [hnodes]
    rfl
  · rw [hkeys, declaredGraph_keys]
  · intro a b
    rw [hadj a b]
    have := declaredGraph_not_adj decls a b
    tauto

/-- C8: `add_node` raises the duplicate error exactly when the name is
already present, and the raise leaves the graph untouched (the first
declaration's node and all edges are exactly as they were); on a fresh
name it inserts the node with an empty successor set.  Consequently a
recognized source declaring the same node name twice fails extraction
with the duplicate error. -/
theorem add_node_duplicate_spec :
    (∀ (g : WorkflowDAG) (n : WorkflowNode),
      ((g.add_node n).2.isSome ↔ n.name ∈ g.nodeNames) ∧
      (n.name ∈ g.nodeNames →
        g.add_node n = (g, some (.duplicateNode n.name))) ∧
      (n.name ∉ g.nodeNames →
        g.add_node n =
          (⟨g.nodes ++ [(n.name, n)], g.edges ++ [(n.name, [])]⟩, Option.none))) ∧
    ∀ (d : String) (decls es : List (String × String)),
      ¬ (decls.map Prod.fst).Nodup →
      ∃ nm, parse_workflow_code (mkRecognizedSource d decls es) =
        .error (.duplicateNode nm) := by
  constructor
  · intro g n
    refine ⟨?_, ?_, ?_⟩
    · unfold WorkflowDAG.add_node
      by_cases h : n.name ∈ g.nodeNames
      · simp [h]
      · simp [h]
    · intro h
      unfold WorkflowDAG.add_node
      rw [if_pos h]
    · intro h
      unfold WorkflowDAG.add_node
      rw [if_neg h]
  · intro d decls es hdup
    obtain ⟨nm, herr⟩ := addDecls_dup decls ⟨[], []⟩ (Or.inr hdup)
    refine ⟨nm, ?_⟩
    calc parse_workflow_code (mkRecognizedSource d decls es)
        = afterPass1 (mkRecognizedSource d decls es)
            (pass1 (mkRecognizedSource d decls es) ([], [])) := rfl
      _ = afterPass1 (mkRecognizedSource d decls es) (.ok ([d], [])) := by
          rw [pass1_mkRecognizedSource]
      _ = afterPass2 (pass2 [d] [] (mkRecognizedSource d decls es) ⟨[], []⟩ []) := by
          show (if ([d] : List String) = [] then Except.error WfError.noDag
            else afterPass2 (pass2 [d] [] (mkRecognizedSource d decls es) ⟨[], []⟩ [])) = _
          rw [if_neg (by simp)]
      _ = .error (.duplicateNode nm) := by
          rw [pass2_mkRecognizedSource, herr]
          rfl

/-- Witness for C8: inserting a node named `a` into a graph already holding
`a` raises the duplicate error and leaves the graph untouched, and the
two-declaration source `a, a` fails extraction with the duplicate error. -/
theorem add_node_duplicate_spec_witness :
    ((WorkflowDAG.mk [("a", ⟨"a", "a", []⟩)] [("a", [])]).add_node ⟨"a", "b", []⟩ =
      (⟨[("a", ⟨"a", "a", []⟩)], [("a", [])]⟩, some (.duplicateNode "a"))) ∧
    ∃ nm, parse_workflow_code
        (mkRecognizedSource "dag" [("a", "x"), ("a", "y")] []) =
      .error (.duplicateNode nm) :=
  ⟨((add_node_duplicate_spec.1 ⟨[("a", ⟨"a", "a", []⟩)] , [("a", [])]⟩
      ⟨"a", "b", []⟩).2.1 (by decide)),
   add_node_duplicate_spec.2 "dag" [("a", "x"), ("a", "y")] [] (by decide)⟩

theorem transGen_mono_iff {r r2 : String → String → Prop}
    (h : ∀ a b, r a b ↔ r2 a b) {a b : String} :
    Relation.TransGen r a b ↔ Relation.TransGen r2 a b :=
  ⟨Relation.TransGen.mono (fun x y hxy => (h x y).mp hxy),
   Relation.TransGen.mono (fun x y hxy => (h x y).mpr hxy)⟩

/-- C1: a well-formed recognized-vocabulary source with N distinct declared
nodes and a node-disjoint acyclic edge set extracts to a graph with exactly
the declared nodes and exactly the declared edges, and `topological_order`
succeeds, returning all N nodes in an order in which every edge's source
precedes its target. -/
theorem recognized_source_roundtrip (d : String)
    (decls es : List (String × String))
    (hnd : (decls.map Prod.fst).Nodup)
    (hes : ∀ p ∈ es, p.1 ∈ decls.map Prod.fst ∧ p.2 ∈ decls.map Prod.fst)
    (hac : ∀ n, ¬ Relation.TransGen (fun a b => (a, b) ∈ es) n n) :
    ∃ g ns, parse_workflow_code (mkRecognizedSource d decls es) = .ok g ∧
      g.nodes = decls.map (fun p => (p.1, ⟨p.1, p.2, []⟩)) ∧
      (∀ a b, g.adj a b ↔ (a, b) ∈ es) ∧
      g.topological_order = .ok ns ∧
      (ns.map WorkflowNode.name).Perm (decls.map Prod.fst) ∧
      ∀ p ∈ es, Precedes p.1 p.2 (ns.map WorkflowNode.name) := by
  obtain ⟨g, hparse, hnodes, hkeys, hadj⟩ :=
    parse_mkRecognizedSource d decls es hnd hes
  have hVnames : g.nodeNames = decls.map Prod.fst := by
    unfold WorkflowDAG.nodeNames
    rw [hnodes, List.map_map]
    rfl
  have hWF : g.WF := by
    refine ⟨?_, ?_, ?_, ?_⟩
    · rw [hVnames]; exact hnd
    · intro p hp
      rw [hnodes] at hp
      obtain ⟨q, _, rfl⟩ := List.mem_map.mp hp
      rfl
    · rw [hkeys, hVnames]
    · intro p hp t ht
      have hlk : List.lookup p.1 g.edges = some p.2 :=
        mem_lookup_nodup g.edges (by rw [hkeys]; exact hnd) p.1 p.2 hp
      have hadj1 : g.adj p.1 t := by
        unfold WorkflowDAG.adj WorkflowDAG.succs
        rw [hlk]
        exact ht
      rw [hVnames]
      exact (hes (p.1, t) ((hadj p.1 t).mp hadj1)).2
  have hnc : ¬ g.hasCycle := by
    rintro ⟨n, htg⟩
    exact hac n ((transGen_mono_iff hadj).mp htg)
  obtain ⟨L, hL⟩ := topoNames_ok_of_acyclic hWF hnc
  obtain ⟨ns, hns, hmap⟩ := topological_order_names hWF hL
  obtain ⟨hLmem, hLnd, _⟩ := topoNames_ok hWF hL
  refine ⟨g, ns, hparse, hnodes, hadj, hns, ?_, ?_⟩
  · rw [hmap]
    rw [List.perm_ext_iff_of_nodup hLnd (hVnames ▸ hWF.1)]
    intro x
    rw [hLmem x, hVnames]
  · intro p hp
    rw [hmap]
    exact topoNames_sorted hWF hL ((hadj p.1 p.2).mpr hp)

theorem singleEdge_transGen {x y : String}
    (h : Relation.TransGen (fun a b => (a, b) ∈ [(("a" : String), ("b" : String))]) x y) :
    x = "a" ∧ y = "b" := by
  induction h with
  | single h1 =>
    rw [List.mem_singleton, Prod.mk.injEq] at h1
    exact h1
  | tail _ h2 ih =>
    rw [List.mem_singleton, Prod.mk.injEq] at h2
    have : ("a" : String) = "b" := h2.1 ▸ ih.2
    exact absurd this (by decide)

theorem singleEdge_acyclic :
    ∀ n, ¬ Relation.TransGen (fun a b => (a, b) ∈ [(("a" : String), ("b" : String))]) n n := by
  intro n h
  have hn := singleEdge_transGen h
  have : ("a" : String) = "b" := hn.1 ▸ hn.2
  exact absurd this (by decide)

/-- Witness for C1: the two-node source with one edge extracts and sorts. -/
theorem recognized_source_roundtrip_witness :
    ∃ g ns, parse_workflow_code
        (mkRecognizedSource "dag" [("a", "a1"), ("b", "b1")] [("a", "b")]) = .ok g ∧
      g.nodes = [("a", "a1"), ("b", "b1")].map
        (fun p => (p.1, ⟨p.1, p.2, []⟩)) ∧
      (∀ a b, g.adj a b ↔ (a, b) ∈ [("a", "b")]) ∧
      g.topological_order = .ok ns ∧
      (ns.map WorkflowNode.name).Perm
        ([("a", "a1"), ("b", "b1")].map Prod.fst) ∧
      ∀ p ∈ [("a", "b")], Precedes p.1 p.2 (ns.map WorkflowNode.name) :=
  recognized_source_roundtrip "dag" [("a", "a1"), ("b", "b1")] [("a", "b")]
    (by decide) (by decide) singleEdge_acyclic

theorem insertSorted_comm (a b : String) (hab : a ≠ b) :
    ∀ l, insertSorted a (insertSorted b l) = insertSorted b (insertSorted a l) := by
  intro l
  induction l with
  | nil =>
    rcases lt_trichotomy a b with h | h | h
    · simp only [insertSorted, ite_true, ite_false, if_pos h, if_neg (lt_asymm h), if_neg (Ne.symm hab)]
    · exact absurd h hab
    · simp only [insertSorted, ite_true, ite_false, if_pos h, if_neg (lt_asymm h), if_neg hab]
  | cons x xs ih =>
    rcases lt_trichotomy a x with hax | hax | hax
    · rcases lt_trichotomy b x with hbx | hbx | hbx
      · rcases lt_trichotomy a b with h | h | h
        · simp only [insertSorted, ite_true, ite_false, if_pos hax, if_pos hbx, if_pos h,
            if_neg (lt_asymm h), if_neg (Ne.symm hab)]
        · exact absurd h hab
        · simp only [insertSorted, ite_true, ite_false, if_pos hax, if_pos hbx, if_pos h,
            if_neg (lt_asymm h), if_neg hab]
      · subst hbx
        simp only [insertSorted, ite_true, ite_false, if_pos hax, if_neg (lt_asymm hax),
          if_neg (Ne.symm hab), lt_irrefl, if_neg (lt_irrefl b),
          if_pos (rfl : b = b), if_neg hab]
      · have hb2 : ¬ b < x := lt_asymm hbx
        have hbne : b ≠ x := Ne.symm (LT.lt.ne hbx)
        have h : a < b := lt_trans hax hbx
        simp only [insertSorted, ite_true, ite_false, if_pos hax, if_neg hb2, if_neg hbne,
          if_pos h, if_neg (lt_asymm h), if_neg (Ne.symm hab)]
    · rcases lt_trichotomy b x with hbx | hbx | hbx
      · subst hax
        simp only [insertSorted, ite_true, ite_false, if_pos hbx, if_neg (lt_asymm hbx),
          if_neg hab, if_neg (lt_irrefl a), if_pos (rfl : a = a)]
      · exact absurd (hax.trans hbx.symm) hab
      · subst hax
        have hb2 : ¬ b < a := lt_asymm hbx
        have hbne : b ≠ a := Ne.symm (LT.lt.ne hbx)
        simp only [insertSorted, ite_true, ite_false, if_neg hb2, if_neg hbne,
          if_neg (lt_irrefl a), if_pos (rfl : a = a)]
    · rcases lt_trichotomy b x with hbx | hbx | hbx
      · have ha2 : ¬ a < x := lt_asymm hax
        have hane : a ≠ x := Ne.symm (LT.lt.ne hax)
        have h : b < a := lt_trans hbx hax
        simp only [insertSorted, ite_true, ite_false, if_pos hbx, if_neg ha2, if_neg hane,
          if_neg (lt_asymm h), if_neg hab, if_pos h]
      · subst hbx
        have ha2 : ¬ a < b := lt_asymm hax
        have hane : a ≠ b := hab
        simp only [insertSorted, ite_true, ite_false, if_neg ha2, if_neg hane,
          if_neg (lt_irrefl b), if_pos (rfl : b = b)]
      · have ha2 : ¬ a < x := lt_asymm hax
        have hane : a ≠ x := Ne.symm (LT.lt.ne hax)
        have hb2 : ¬ b < x := lt_asymm hbx
        have hbne : b ≠ x := Ne.symm (LT.lt.ne hbx)
        simp only [insertSorted, ite_true, ite_false, if_neg ha2, if_neg hane, if_neg hb2,
          if_neg hbne, ih, List.cons.injEq, true_and]

theorem updateEdges_comm (s1 t1 s2 t2 : String) :
    ∀ l, updateEdges s1 t1 (updateEdges s2 t2 l) =
      updateEdges s2 t2 (updateEdges s1 t1 l) := by
  by_cases hs : s1 = s2
  · subst hs
    by_cases ht : t1 = t2
    · subst ht
      intro l
      rfl
    · intro l
      induction l with
      | nil => rfl
      | cons p rest ih =>
        obtain ⟨k, ss⟩ := p
        by_cases hk : k = s1
        · simp [updateEdges, hk, insertSorted_comm t1 t2 ht ss]
        · simp [updateEdges, hk, ih]
  · intro l
    induction l with
    | nil => rfl
    | cons p rest ih =>
      obtain ⟨k, ss⟩ := p
      by_cases hk1 : k = s1
      · subst hk1
        simp [updateEdges, hs]
      · by_cases hk2 : k = s2
        · subst hk2
          have hs2 : ¬ k = s1 := fun h => hs h.symm
          simp [updateEdges, hs2, hk1]
        · simp [updateEdges, hk1, hk2, ih]

theorem applyEdge_eq (p : String × String) (g : WorkflowDAG) :
    applyEdge p g =
      if p.1 ∈ g.nodeNames ∧ p.2 ∈ g.nodeNames
      then .ok ⟨g.nodes, updateEdges p.1 p.2 g.edges⟩
      else .error .unknownNode := by
  unfold applyEdge WorkflowDAG.add_edge
  by_cases h : p.1 ∈ g.nodeNames ∧ p.2 ∈ g.nodeNames <;> simp [h]


/-- Applying two collected edges in either order gives the same result. -/
theorem applyEdge_swap (p q : String × String) (g : WorkflowDAG) :
    (applyEdge p g >>= applyEdge q) = (applyEdge q g >>= applyEdge p) := by
  rw [applyEdge_eq p g, applyEdge_eq q g]
  by_cases hp : p.1 ∈ g.nodeNames ∧ p.2 ∈ g.nodeNames <;>
    by_cases hq : q.1 ∈ g.nodeNames ∧ q.2 ∈ g.nodeNames
  · rw [if_pos hp, if_pos hq]
    show applyEdge q ⟨g.nodes, updateEdges p.1 p.2 g.edges⟩ =
      applyEdge p ⟨g.nodes, updateEdges q.1 q.2 g.edges⟩
    rw [applyEdge_eq, applyEdge_eq]
    have hqn : (WorkflowDAG.mk g.nodes (updateEdges p.1 p.2 g.edges)).nodeNames =
        g.nodeNames := rfl
    have hpn : (WorkflowDAG.mk g.nodes (updateEdges q.1 q.2 g.edges)).nodeNames =
        g.nodeNames := rfl
    rw [hqn, hpn, if_pos hq, if_pos hp]
    rw [show updateEdges q.1 q.2
        (WorkflowDAG.mk g.nodes (updateEdges p.1 p.2 g.edges)).edges =
      updateEdges q.1 q.2 (updateEdges p.1 p.2 g.edges) from rfl]
    rw [show updateEdges p.1 p.2
        (WorkflowDAG.mk g.nodes (updateEdges q.1 q.2 g.edges)).edges =
      updateEdges p.1 p.2 (updateEdges q.1 q.2 g.edges) from rfl]
    rw [updateEdges_comm]
  · rw [if_pos hp, if_neg hq]
    show applyEdge q ⟨g.nodes, updateEdges p.1 p.2 g.edges⟩ =
      Except.error WfError.unknownNode
    rw [applyEdge_eq]
    exact if_neg hq
  · rw [if_neg hp, if_pos hq]
    show Except.error WfError.unknownNode =
      applyEdge p ⟨g.nodes, updateEdges q.1 q.2 g.edges⟩
    rw [applyEdge_eq]
    exact (if_neg hp).symm
  · rw [if_neg hp, if_neg hq]
    rfl


theorem applyEdges_two (x y : String × String) (g : WorkflowDAG)
    (l : List (String × String)) :
    applyEdges (x :: y :: l) g =
      (applyEdge x g >>= applyEdge y) >>= applyEdges l := by
  unfold applyEdges
  rw [exceptFold]
  cases applyEdge x g with
  | error e => rfl
  | ok g1 =>
    show exceptFold applyEdge (y :: l) g1 = applyEdge y g1 >>= applyEdges l
    rw [exceptFold]
    cases applyEdge y g1 with
    | error e => rfl
    | ok g2 => rfl

/-- An edge at the head of the application list may be moved to the end. -/
theorem applyEdges_rotate (p : String × String) :
    ∀ (E : List (String × String)) (g : WorkflowDAG),
      applyEdges (p :: E) g = applyEdges (E ++ [p]) g := by
  intro E
  induction E with
  | nil => intro g; rfl
  | cons q E2 ih =>
    intro g
    calc applyEdges (p :: q :: E2) g
        = (applyEdge p g >>= applyEdge q) >>= applyEdges E2 :=
          applyEdges_two p q g E2
      _ = (applyEdge q g >>= applyEdge p) >>= applyEdges E2 := by
          rw [applyEdge_swap]
      _ = applyEdges (q :: p :: E2) g := (applyEdges_two q p g E2).symm
      _ = applyEdges (q :: (E2 ++ [p])) g := by
          unfold applyEdges
          rw [exceptFold, exceptFold]
          cases applyEdge q g with
          | error e => rfl
          | ok g1 => exact ih g1
      _ = applyEdges ((q :: E2) ++ [p]) g := rfl

/-- One pass-two step only appends to the collected-edge list and never
reads it: its effect factors through the step from an empty list. -/
theorem pass2Step_es (dn : List String) (nn : List (String × WorkflowNode))
    (s : Stmt) (g : WorkflowDAG) (es : List (String × String)) :
    pass2Step dn nn s (g, es) =
      match pass2Step dn nn s (g, []) with
      | .error e => .error e
      | .ok (g1, d2) => .ok (g1, es ++ d2) := by
  unfold pass2Step
  cases hc : stmtCallValue s with
  | none => simp
  | some trip =>
    obtain ⟨func, args, kws⟩ := trip
    show pass2Call dn nn func args g es =
      (match pass2Call dn nn func args g [] with
       | Except.error e => Except.error e
       | Except.ok (g1, d2) => Except.ok (g1, es ++ d2))
    unfold pass2Call
    by_cases h1 : isDagMethodCall func dn "add_node" = true
    · rw [if_pos h1, if_pos h1]
      cases args with
      | nil => rfl
      | cons ref rest =>
        cases hpr : parseNodeRef nn ref with
        | error e => simp [pass2AddNode, hpr]
        | ok node =>
          cases hadd : g.add_node node with
          | mk g1 err =>
            cases err with
            | none => simp [pass2AddNode, hpr, addNodeResult, hadd]
            | some e => simp [pass2AddNode, hpr, addNodeResult, hadd]
    · rw [if_neg h1, if_neg h1]
      by_cases h2 : isDagMethodCall func dn "add_edge" = true
      · rw [if_pos h2, if_pos h2]
        cases args with
        | nil => rfl
        | cons a0 args1 =>
          cases args1 with
          | nil => rfl
          | cons a1 rest =>
            cases hv0 : literalEvalNode a0 "edge source" with
            | error e => simp [pass2AddEdge, hv0]
            | ok v0 =>
              cases hv1 : literalEvalNode a1 "edge target" with
              | error e => simp [pass2AddEdge, hv0, hv1]
              | ok v1 => simp [pass2AddEdge, hv0, hv1]
      · rw [if_neg h2, if_neg h2]
        simp

/-- The collected-edge list factors out of the whole pass-two walk. -/
theorem pass2_es_shift (dn : List String) (nn : List (String × WorkflowNode)) :
    ∀ (stmts : List Stmt) (g : WorkflowDAG) (es : List (String × String)),
      exceptFold (pass2Step dn nn) stmts (g, es) =
        match exceptFold (pass2Step dn nn) stmts (g, []) with
        | .error e => .error e
        | .ok (g2, d2) => .ok (g2, es ++ d2) := by
  intro stmts
  induction stmts with
  | nil =>
    intro g es
    simp [exceptFold]
  | cons s rest ih =>
    intro g es
    rw [exceptFold, exceptFold, pass2Step_es dn nn s g es]
    cases hstep : pass2Step dn nn s (g, []) with
    | error e => rfl
    | ok st1 =>
      obtain ⟨g1, d1⟩ := st1
      show exceptFold (pass2Step dn nn) rest (g1, es ++ d1) =
        (match exceptFold (pass2Step dn nn) rest (g1, d1) with
         | Except.error e => Except.error e
         | Except.ok (g2, d2) => Except.ok (g2, es ++ d2))
      rw [ih g1 (es ++ d1), ih g1 d1]
      cases exceptFold (pass2Step dn nn) rest (g1, []) with
      | error e => rfl
      | ok st2 =>
        obtain ⟨g2, d2⟩ := st2
        simp [List.append_assoc]

/-- C6: the extraction result is independent of where an `add_edge`
statement appears relative to the node-declaration statements.  The call is
collected during the statement walk and applied only after every `add_node`
statement has been processed, so moving an `add_edge` statement (with
literal source and target arguments) from anywhere in the source to the
very end yields exactly the same extraction result — in particular an edge
may precede the declarations of the nodes it references. -/
theorem edge_statement_order_irrelevant
    (dv : String) (a0 a1 : PExpr) (rest : List PExpr)
    (kws : List (Option String × PExpr)) (v0 v1 : Lit)
    (hv0 : literalEval a0 = some v0) (hv1 : literalEval a1 = some v1)
    (l1 l2 : List Stmt) :
    parse_workflow_code
        (l1 ++ Stmt.exprStmt (.call (.attr (.name dv) "add_edge")
          (a0 :: a1 :: rest) kws) :: l2) =
      parse_workflow_code
        (l1 ++ l2 ++ [Stmt.exprStmt (.call (.attr (.name dv) "add_edge")
          (a0 :: a1 :: rest) kws)]) := by
  have hskip1 : ∀ acc, pass1Step (Stmt.exprStmt (.call (.attr (.name dv)
      "add_edge") (a0 :: a1 :: rest) kws)) acc = .ok acc := by
    intro acc
    obtain ⟨x, y⟩ := acc
    rfl
  have hp1 : pass1 (l1 ++ Stmt.exprStmt (.call (.attr (.name dv) "add_edge")
      (a0 :: a1 :: rest) kws) :: l2) ([], []) = pass1 (l1 ++ l2) ([], []) :=
    exceptFold_skip pass1Step hskip1 l1 l2 ([], [])
  have hp1r : pass1 (l1 ++ l2 ++ [Stmt.exprStmt (.call (.attr (.name dv)
      "add_edge") (a0 :: a1 :: rest) kws)]) ([], []) =
      pass1 (l1 ++ l2) ([], []) := by
    have h2 := exceptFold_skip pass1Step hskip1 (l1 ++ l2) [] ([], [])
    rw [List.append_nil] at h2
    exact h2
  unfold parse_workflow_code
  rw [hp1, hp1r]
  cases hp : pass1 (l1 ++ l2) ([], []) with
  | error e2 => rfl
  | ok acc =>
    obtain ⟨dn, nn⟩ := acc
    show (if dn = [] then Except.error WfError.noDag
          else afterPass2 (pass2 dn nn (l1 ++ Stmt.exprStmt (.call
            (.attr (.name dv) "add_edge") (a0 :: a1 :: rest) kws) :: l2)
            ⟨[], []⟩ [])) =
        (if dn = [] then Except.error WfError.noDag
          else afterPass2 (pass2 dn nn (l1 ++ l2 ++ [Stmt.exprStmt (.call
            (.attr (.name dv) "add_edge") (a0 :: a1 :: rest) kws)])
            ⟨[], []⟩ []))
    by_cases hdn : dn = []
    · rw [if_pos hdn, if_pos hdn]
    · rw [if_neg hdn, if_neg hdn]
      by_cases hdv : dv ∈ dn
      · have hstepE : ∀ (g : WorkflowDAG) (es : List (String × String)),
            pass2Step dn nn (Stmt.exprStmt (.call (.attr (.name dv)
              "add_edge") (a0 :: a1 :: rest) kws)) (g, es) =
            .ok (g, es ++ [(v0.pyStr, v1.pyStr)]) := by
          intro g es
          show pass2Call dn nn (.attr (.name dv) "add_edge")
            (a0 :: a1 :: rest) g es = .ok (g, es ++ [(v0.pyStr, v1.pyStr)])
          have hb1 : isDagMethodCall (.attr (.name dv) "add_edge") dn
              "add_node" = false := by
            unfold isDagMethodCall
            simp
          have hb2 : isDagMethodCall (.attr (.name dv) "add_edge") dn
              "add_edge" = true := by
            unfold isDagMethodCall
            simp [hdv]
          unfold pass2Call
          rw [hb1, hb2]
          show pass2AddEdge (a0 :: a1 :: rest) g es =
            .ok (g, es ++ [(v0.pyStr, v1.pyStr)])
          simp [pass2AddEdge, literalEvalNode, hv0, hv1]
        unfold pass2
        cases hf1 : exceptFold (pass2Step dn nn) l1
            ((⟨[], []⟩ : WorkflowDAG), ([] : List (String × String))) with
        | error e2 =>
          have hL : exceptFold (pass2Step dn nn)
              (l1 ++ Stmt.exprStmt (.call (.attr (.name dv) "add_edge")
                (a0 :: a1 :: rest) kws) :: l2)
              ((⟨[], []⟩ : WorkflowDAG), ([] : List (String × String))) =
              .error e2 := by
            rw [exceptFold_append (pass2Step dn nn) l1 (Stmt.exprStmt
              (.call (.attr (.name dv) "add_edge") (a0 :: a1 :: rest) kws)
              :: l2), hf1]
          have hR : exceptFold (pass2Step dn nn)
              (l1 ++ l2 ++ [Stmt.exprStmt (.call (.attr (.name dv)
                "add_edge") (a0 :: a1 :: rest) kws)])
              ((⟨[], []⟩ : WorkflowDAG), ([] : List (String × String))) =
              .error e2 := by
            rw [List.append_assoc l1 l2 [Stmt.exprStmt (.call (.attr
              (.name dv) "add_edge") (a0 :: a1 :: rest) kws)]]
            rw [exceptFold_append (pass2Step dn nn) l1 (l2 ++ [Stmt.exprStmt
              (.call (.attr (.name dv) "add_edge") (a0 :: a1 :: rest)
              kws)]), hf1]
          rw [hL, hR]
        | ok st1 =>
          obtain ⟨g1, E1⟩ := st1
          cases hf2 : exceptFold (pass2Step dn nn) l2
              (g1, ([] : List (String × String))) with
          | error e2 =>
            have hL : exceptFold (pass2Step dn nn)
                (l1 ++ Stmt.exprStmt (.call (.attr (.name dv) "add_edge")
                  (a0 :: a1 :: rest) kws) :: l2)
                ((⟨[], []⟩ : WorkflowDAG), ([] : List (String × String))) =
                .error e2 := by
              rw [exceptFold_append (pass2Step dn nn) l1 (Stmt.exprStmt
                (.call (.attr (.name dv) "add_edge") (a0 :: a1 :: rest)
                kws) :: l2), hf1]
              show exceptFold (pass2Step dn nn) (Stmt.exprStmt (.call
                (.attr (.name dv) "add_edge") (a0 :: a1 :: rest) kws)
                :: l2) (g1, E1) = .error e2
              rw [exceptFold, hstepE g1 E1]
              show exceptFold (pass2Step dn nn) l2
                (g1, E1 ++ [(v0.pyStr, v1.pyStr)]) = .error e2
              rw [pass2_es_shift dn nn l2 g1
                (E1 ++ [(v0.pyStr, v1.pyStr)]), hf2]
            have hR2 : exceptFold (pass2Step dn nn)
                (l2 ++ [Stmt.exprStmt (.call (.attr (.name dv) "add_edge")
                  (a0 :: a1 :: rest) kws)])
                (g1, ([] : List (String × String))) = .error e2 := by
              rw [exceptFold_append (pass2Step dn nn) l2 [Stmt.exprStmt
                (.call (.attr (.name dv) "add_edge") (a0 :: a1 :: rest)
                kws)], hf2]
            have hR : exceptFold (pass2Step dn nn)
                (l1 ++ l2 ++ [Stmt.exprStmt (.call (.attr (.name dv)
                  "add_edge") (a0 :: a1 :: rest) kws)])
                ((⟨[], []⟩ : WorkflowDAG), ([] : List (String × String))) =
                .error e2 := by
              rw [List.append_assoc l1 l2 [Stmt.exprStmt (.call (.attr
                (.name dv) "add_edge") (a0 :: a1 :: rest) kws)]]
              rw [exceptFold_append (pass2Step dn nn) l1 (l2 ++
                [Stmt.exprStmt (.call (.attr (.name dv) "add_edge")
                  (a0 :: a1 :: rest) kws)]), hf1]
              show exceptFold (pass2Step dn nn) (l2 ++ [Stmt.exprStmt
                (.call (.attr (.name dv) "add_edge") (a0 :: a1 :: rest)
                kws)]) (g1, E1) = .error e2
              rw [pass2_es_shift dn nn (l2 ++ [Stmt.exprStmt (.call
                (.attr (.name dv) "add_edge") (a0 :: a1 :: rest) kws)])
                g1 E1, hR2]
            rw [hL, hR]
          | ok st2 =>
            obtain ⟨g2, E2⟩ := st2
            have hL : exceptFold (pass2Step dn nn)
                (l1 ++ Stmt.exprStmt (.call (.attr (.name dv) "add_edge")
                  (a0 :: a1 :: rest) kws) :: l2)
                ((⟨[], []⟩ : WorkflowDAG), ([] : List (String × String))) =
                .ok (g2, (E1 ++ [(v0.pyStr, v1.pyStr)]) ++ E2) := by
              rw [exceptFold_append (pass2Step dn nn) l1 (Stmt.exprStmt
                (.call (.attr (.name dv) "add_edge") (a0 :: a1 :: rest)
                kws) :: l2), hf1]
              show exceptFold (pass2Step dn nn) (Stmt.exprStmt (.call
                (.attr (.name dv) "add_edge") (a0 :: a1 :: rest) kws)
                :: l2) (g1, E1) =
                .ok (g2, (E1 ++ [(v0.pyStr, v1.pyStr)]) ++ E2)
              rw [exceptFold, hstepE g1 E1]
              show exceptFold (pass2Step dn nn) l2
                (g1, E1 ++ [(v0.pyStr, v1.pyStr)]) =
                .ok (g2, (E1 ++ [(v0.pyStr, v1.pyStr)]) ++ E2)
              rw [pass2_es_shift dn nn l2 g1
                (E1 ++ [(v0.pyStr, v1.pyStr)]), hf2]
            have hR2 : exceptFold (pass2Step dn nn)
                (l2 ++ [Stmt.exprStmt (.call (.attr (.name dv) "add_edge")
                  (a0 :: a1 :: rest) kws)])
                (g1, ([] : List (String × String))) =
                .ok (g2, E2 ++ [(v0.pyStr, v1.pyStr)]) := by
              rw [exceptFold_append (pass2Step dn nn) l2 [Stmt.exprStmt
                (.call (.attr (.name dv) "add_edge") (a0 :: a1 :: rest)
                kws)], hf2]
              show exceptFold (pass2Step dn nn) [Stmt.exprStmt (.call
                (.attr (.name dv) "add_edge") (a0 :: a1 :: rest) kws)]
                (g2, E2) = .ok (g2, E2 ++ [(v0.pyStr, v1.pyStr)])
              rw [exceptFold, hstepE g2 E2]
              rfl
            have hR : exceptFold (pass2Step dn nn)
                (l1 ++ l2 ++ [Stmt.exprStmt (.call (.attr (.name dv)
                  "add_edge") (a0 :: a1 :: rest) kws)])
                ((⟨[], []⟩ : WorkflowDAG), ([] : List (String × String))) =
                .ok (g2, E1 ++ (E2 ++ [(v0.pyStr, v1.pyStr)])) := by
              rw [List.append_assoc l1 l2 [Stmt.exprStmt (.call (.attr
                (.name dv) "add_edge") (a0 :: a1 :: rest) kws)]]
              rw [exceptFold_append (pass2Step dn nn) l1 (l2 ++
                [Stmt.exprStmt (.call (.attr (.name dv) "add_edge")
                  (a0 :: a1 :: rest) kws)]), hf1]
              show exceptFold (pass2Step dn nn) (l2 ++ [Stmt.exprStmt
                (.call (.attr (.name dv) "add_edge") (a0 :: a1 :: rest)
                kws)]) (g1, E1) =
                .ok (g2, E1 ++ (E2 ++ [(v0.pyStr, v1.pyStr)]))
              rw [pass2_es_shift dn nn (l2 ++ [Stmt.exprStmt (.call
                (.attr (.name dv) "add_edge") (a0 :: a1 :: rest) kws)])
                g1 E1, hR2]
            rw [hL, hR]
            show applyEdges ((E1 ++ [(v0.pyStr, v1.pyStr)]) ++ E2) g2 =
              applyEdges (E1 ++ (E2 ++ [(v0.pyStr, v1.pyStr)])) g2
            rw [List.append_assoc E1 [(v0.pyStr, v1.pyStr)] E2,
              List.singleton_append]
            unfold applyEdges
            rw [exceptFold_append applyEdge E1 ((v0.pyStr, v1.pyStr) :: E2),
              exceptFold_append applyEdge E1
                (E2 ++ [(v0.pyStr, v1.pyStr)])]
            cases exceptFold applyEdge E1 g2 with
            | error e3 => rfl
            | ok g3 =>
              show applyEdges ((v0.pyStr, v1.pyStr) :: E2) g3 =
                applyEdges (E2 ++ [(v0.pyStr, v1.pyStr)]) g3
              exact applyEdges_rotate (v0.pyStr, v1.pyStr) E2 g3
      · have hskip2 : ∀ st, pass2Step dn nn (Stmt.exprStmt (.call
            (.attr (.name dv) "add_edge") (a0 :: a1 :: rest) kws)) st =
            .ok st := by
          intro st
          obtain ⟨g, es⟩ := st
          show pass2Call dn nn (.attr (.name dv) "add_edge")
            (a0 :: a1 :: rest) g es = .ok (g, es)
          have hb1 : isDagMethodCall (.attr (.name dv) "add_edge") dn
              "add_node" = false := by
            unfold isDagMethodCall
            simp
          have hb2 : isDagMethodCall (.attr (.name dv) "add_edge") dn
              "add_edge" = false := by
            unfold isDagMethodCall
            simp [hdv]
          unfold pass2Call
          rw [hb1, hb2]
          rfl
        unfold pass2
        rw [exceptFold_skip (pass2Step dn nn) hskip2 l1 l2]
        have h3 := exceptFold_skip (pass2Step dn nn) hskip2 (l1 ++ l2) []
          ((⟨[], []⟩ : WorkflowDAG), ([] : List (String × String)))
        rw [List.append_nil] at h3
        rw [h3]

/-- Witness for C6: a source whose `add_edge("a", "b")` precedes the
declarations of both nodes it references extracts to the same graph as the
reordered source with the edge statement last, and extraction succeeds,
yielding the expected two-node chain. -/
theorem edge_statement_order_irrelevant_witness :
    parse_workflow_code
        ([Stmt.assign ["dag"] (.call (.name "WorkflowDAG") [] [])] ++
          Stmt.exprStmt (.call (.attr (.name "dag") "add_edge")
            (PExpr.constStr "a" :: PExpr.constStr "b" :: []) []) ::
          [nodeStmt "dag" ("a", "a"), nodeStmt "dag" ("b", "b")]) =
      parse_workflow_code
        ([Stmt.assign ["dag"] (.call (.name "WorkflowDAG") [] [])] ++
          [nodeStmt "dag" ("a", "a"), nodeStmt "dag" ("b", "b")] ++
          [Stmt.exprStmt (.call (.attr (.name "dag") "add_edge")
            (PExpr.constStr "a" :: PExpr.constStr "b" :: []) [])]) ∧
    parse_workflow_code
        ([Stmt.assign ["dag"] (.call (.name "WorkflowDAG") [] [])] ++
          Stmt.exprStmt (.call (.attr (.name "dag") "add_edge")
            (PExpr.constStr "a" :: PExpr.constStr "b" :: []) []) ::
          [nodeStmt "dag" ("a", "a"), nodeStmt "dag" ("b", "b")]) =
      .ok gChain :=
  ⟨edge_statement_order_irrelevant "dag" (.constStr "a") (.constStr "b")
      [] [] (.str "a") (.str "b") rfl rfl
      [Stmt.assign ["dag"] (.call (.name "WorkflowDAG") [] [])]
      [nodeStmt "dag" ("a", "a"), nodeStmt "dag" ("b", "b")],
    by rfl⟩

/-- The revision loop started after attempt `i` stops at the first later
attempt that validates, returning that attempt's result and one revision
call per failed attempt in between. -/
theorem buildLoop_spec (gen : PlanCode)
    (revise : PlanCode → Option PlanError → PlanCode) (max_attempts : Nat) :
    ∀ (k i : Nat),
      (∀ j, j < k →
        (validate_workflow_plan (planSeq gen revise (i + j))).compiled = false) →
      (validate_workflow_plan (planSeq gen revise (i + k))).compiled = true →
      i + k < max_attempts →
      buildLoop revise max_attempts (i + 1) (planSeq gen revise i)
          (validate_workflow_plan (planSeq gen revise i)) =
        (validate_workflow_plan (planSeq gen revise (i + k)), k) := by
  intro k
  induction k with
  | zero =>
    intro i h0 hsucc hmax
    have hsucc2 : (validate_workflow_plan (planSeq gen revise i)).compiled
        = true := by
      rwa [Nat.add_zero] at hsucc
    show buildLoop revise max_attempts (i + 1) (planSeq gen revise i)
        (validate_workflow_plan (planSeq gen revise i)) =
      (validate_workflow_plan (planSeq gen revise i), 0)
    rw [buildLoop]
    rw [dif_neg]
    intro hcon
    exact hcon.1 hsucc2
  | succ k ih =>
    intro i h0 hsucc hmax
    have hc0 : (validate_workflow_plan (planSeq gen revise i)).compiled
        = false := by
      have h1 := h0 0 (Nat.succ_pos k)
      rwa [Nat.add_zero] at h1
    rw [buildLoop]
    rw [dif_pos ⟨by simp [hc0], by omega⟩]
    show ((buildLoop revise max_attempts (i + 1 + 1)
          (planSeq gen revise (i + 1))
          (validate_workflow_plan (planSeq gen revise (i + 1)))).1,
        (buildLoop revise max_attempts (i + 1 + 1)
          (planSeq gen revise (i + 1))
          (validate_workflow_plan (planSeq gen revise (i + 1)))).2 + 1) =
      (validate_workflow_plan (planSeq gen revise (i + (k + 1))), k + 1)
    have h0s : ∀ j, j < k →
        (validate_workflow_plan (planSeq gen revise (i + 1 + j))).compiled
          = false := by
      intro j hj
      have h1 := h0 (j + 1) (by omega)
      rwa [show i + (j + 1) = i + 1 + j from by omega] at h1
    have hsuccs : (validate_workflow_plan
        (planSeq gen revise (i + 1 + k))).compiled = true := by
      rwa [show i + (k + 1) = i + 1 + k from by omega] at hsucc
    have hrec := ih (i + 1) h0s hsuccs (by omega)
    rw [hrec]
    rw [show i + 1 + k = i + (k + 1) from by omega]

/-- C9: the plan validation loop stops at the first attempt that both
compiles and extracts.  If every attempt before attempt `k` fails
validation and attempt `k` (counted from zero, so `k = 1` is the first
revision) validates, with `k` below the attempt bound, the session returns
attempt `k` result and issues exactly `k + 1` generation-collaborator
calls — for the spec's scenario (`max_attempts = 3`, first attempt fails,
second succeeds) that is two calls and never a third. -/
theorem plan_loop_stops_at_first_success (gen : PlanCode)
    (revise : PlanCode → Option PlanError → PlanCode) (max_attempts k : Nat)
    (hfail : ∀ j, j < k →
      (validate_workflow_plan (planSeq gen revise j)).compiled = false)
    (hsucc : (validate_workflow_plan (planSeq gen revise k)).compiled = true)
    (hmax : k < max_attempts) :
    build_and_validate_workflow_plan gen revise max_attempts =
      (validate_workflow_plan (planSeq gen revise k), k + 1) := by
  have hfail0 : ∀ j, j < k →
      (validate_workflow_plan (planSeq gen revise (0 + j))).compiled
        = false := by
    intro j hj
    rw [Nat.zero_add]
    exact hfail j hj
  have hsucc0 : (validate_workflow_plan
      (planSeq gen revise (0 + k))).compiled = true := by
    rw [Nat.zero_add]
    exact hsucc
  have h := buildLoop_spec gen revise max_attempts k 0 hfail0 hsucc0
    (by omega)
  rw [Nat.zero_add, Nat.zero_add] at h
  show ((buildLoop revise max_attempts 1 (planSeq gen revise 0)
        (validate_workflow_plan (planSeq gen revise 0))).1,
      (buildLoop revise max_attempts 1 (planSeq gen revise 0)
        (validate_workflow_plan (planSeq gen revise 0))).2 + 1) =
    (validate_workflow_plan (planSeq gen revise k), k + 1)
  rw [h]

/-- Witness for C9: with a first attempt that fails the syntax check, a
reviser whose first revision is the healthy one-node source and
`max_attempts = 3`, every attempt before the second fails, the second
validates, and the session returns the second attempt result after exactly
two generation-collaborator calls. -/
theorem plan_loop_stops_at_first_success_witness :
    (∀ j, j < 1 → (validate_workflow_plan (planSeq Option.none
      (fun _ _ => some srcSimple) j)).compiled = false) ∧
    (validate_workflow_plan (planSeq Option.none
      (fun _ _ => some srcSimple) 1)).compiled = true ∧
    build_and_validate_workflow_plan Option.none
        (fun _ _ => some srcSimple) 3 =
      (validate_workflow_plan (planSeq Option.none
        (fun _ _ => some srcSimple) 1), 2) :=
  ⟨fun j hj => by
      have hj0 : j = 0 := by omega
      subst hj0
      rfl,
    rfl,
    plan_loop_stops_at_first_success Option.none
      (fun _ _ => some srcSimple) 3 1
      (fun j hj => by
        have hj0 : j = 0 := by omega
        subst hj0
        rfl)
      rfl (by omega)⟩
